import Mathlib

set_option maxRecDepth 10000
set_option maxHeartbeats 1000000

namespace Dockrion

/- ===== Character helpers (ASCII semantics of the Python string operations) ===== -/

def isWsC (c : Char) : Bool :=
  c = ' ' || c = '\t' || c = '\n' || c = '\r' || c = '\x0b' || c = '\x0c'

def isDigitC (c : Char) : Bool :=
  decide (48 ≤ c.toNat) && decide (c.toNat ≤ 57)

def digitVal (c : Char) : Nat := c.toNat - 48

def digitChar (d : Nat) : Char := Char.ofNat (48 + d)

def charLower (c : Char) : Char :=
  if 65 ≤ c.toNat ∧ c.toNat ≤ 90 then Char.ofNat (c.toNat + 32) else c

def isAlnumC (c : Char) : Bool :=
  (decide (65 ≤ c.toNat) && decide (c.toNat ≤ 90)) ||
  (decide (97 ≤ c.toNat) && decide (c.toNat ≤ 122)) ||
  isDigitC c

def isSepC (c : Char) : Bool := c = '-' || c = '_' || c = '.'

def isNameC (c : Char) : Bool := isAlnumC c || isSepC c

/- Python str.strip(): drop whitespace from both ends. -/
def trimChars (l : List Char) : List Char :=
  ((l.dropWhile isWsC).reverse.dropWhile isWsC).reverse

def lowerChars (l : List Char) : List Char := l.map charLower

def lowerStr (s : String) : String := String.mk (lowerChars s.data)

/- Split at the first occurrence of a character, dropping it (str.split(c, 1)). -/
def splitFirst (ch : Char) : List Char → Option (List Char × List Char)
  | [] => none
  | c :: cs =>
    if c = ch then some ([], cs)
    else
      match splitFirst ch cs with
      | some (a, b) => some (c :: a, b)
      | none => none

/- Python str.split(","). -/
def splitCommaChars : List Char → List (List Char)
  | [] => [[]]
  | c :: cs =>
    if c = ',' then [] :: splitCommaChars cs
    else
      match splitCommaChars cs with
      | h :: t => (c :: h) :: t
      | [] => [[c]]

def trimStr (s : String) : String := String.mk (trimChars s.data)

/- ===== Decimal printing and reading of natural numbers ===== -/

def natCharsAux : Nat → Nat → List Char
  | 0, n => [digitChar n]
  | fuel + 1, n =>
    if n < 10 then [digitChar n]
    else natCharsAux fuel (n / 10) ++ [digitChar (n % 10)]

def natChars (n : Nat) : List Char := natCharsAux n n

def natToStr (n : Nat) : String := String.mk (natChars n)

/- Consume a maximal run of decimal digits, accumulating their value. -/
def readNum : Nat → List Char → Nat × List Char
  | acc, [] => (acc, [])
  | acc, c :: cs =>
    if isDigitC c then readNum (10 * acc + digitVal c) cs else (acc, c :: cs)

/- Read one or more digits (the regex group (\d+)). -/
def readNat : List Char → Option (Nat × List Char)
  | [] => none
  | c :: cs => if isDigitC c then some (readNum (digitVal c) cs) else none

/- ===== Version (version.py, class Version) ===== -/

structure Version where
  major : Nat
  minor : Nat := 0
  patch : Nat := 0
  pre_release : Option String := none
  pre_release_num : Option Nat := none
deriving DecidableEq, Repr

/- Version.as_tuple: pre-releases sort before releases (a/alpha -3, b/beta -2, rc/c -1). -/
def Version.asTuple (v : Version) : Nat × Nat × Nat × Int × Nat :=
  match v.pre_release with
  | none => (v.major, v.minor, v.patch, 0, 0)
  | some s =>
    if s = "" then (v.major, v.minor, v.patch, 0, 0)
    else
      let l := lowerStr s
      let po : Int :=
        if l = "a" || l = "alpha" then -3
        else if l = "b" || l = "beta" then -2
        else if l = "rc" || l = "c" then -1
        else 0
      (v.major, v.minor, v.patch, po, v.pre_release_num.getD 0)

/- Lexicographic comparison of the 5-tuples (Python tuple comparison). -/
def cmpTuple (a b : Nat × Nat × Nat × Int × Nat) : Ordering :=
  (compare a.1 b.1).then ((compare a.2.1 b.2.1).then
    ((compare a.2.2.1 b.2.2.1).then ((compare a.2.2.2.1 b.2.2.2.1).then
      (compare a.2.2.2.2 b.2.2.2.2))))

def vCmp (a b : Version) : Ordering := cmpTuple a.asTuple b.asTuple

def vLt (a b : Version) : Bool := vCmp a b == .lt

def vGt (a b : Version) : Bool := vCmp a b == .gt

def vLe (a b : Version) : Bool := vCmp a b != .gt

def vGe (a b : Version) : Bool := vCmp a b != .lt

def vBeq (a b : Version) : Bool := decide (a.asTuple = b.asTuple)

/- Version.__str__ : "major.minor.patch" plus pre-release tag and number
   (a zero or missing pre_release_num prints as the empty string). -/
def versionChars (v : Version) : List Char :=
  let base := natChars v.major ++ '.' :: natChars v.minor ++ '.' :: natChars v.patch
  match v.pre_release with
  | none => base
  | some s =>
    if s = "" then base
    else
      base ++ s.data ++
        (match v.pre_release_num with
         | none => []
         | some n => if n = 0 then [] else natChars n)

def versionToString (v : Version) : String := String.mk (versionChars v)

/- ===== parse_version (version.py): regex
   ^(\d+)(?:\.(\d+))?(?:\.(\d+))?(?:(a|b|rc|alpha|beta|c)(\d+)?)?$ , IGNORECASE ===== -/

/- An optional group "\.(\d+)": if the next char is a dot it must be followed by
   digits, otherwise the group matches nothing (and a stray dot fails the whole match). -/
def readOptDotNat : List Char → Option (Option Nat × List Char)
  | [] => some (none, [])
  | c :: cs =>
    if c = '.' then
      match readNat cs with
      | some (n, r) => some (some n, r)
      | none => none
    else some (none, c :: cs)

/- Case-insensitive literal prefix match, returning the original-case chars. -/
def stripPrefixCI : List Char → List Char → Option (List Char × List Char)
  | [], cs => some ([], cs)
  | _ :: _, [] => none
  | p :: ps, c :: cs =>
    if charLower c = p then
      match stripPrefixCI ps cs with
      | some (m, r) => some (c :: m, r)
      | none => none
    else none

/- The regex alternation (a|b|rc|alpha|beta|c) with backtracking against (\d+)?$ :
   the first alternative whose remainder consists solely of digits wins. -/
def tagCandidates : List (List Char) :=
  [['a'], ['b'], ['r', 'c'], ['a', 'l', 'p', 'h', 'a'], ['b', 'e', 't', 'a'], ['c']]

def tryTags : List (List Char) → List Char → Option (String × Option Nat)
  | [], _ => none
  | t :: ts, cs =>
    match stripPrefixCI t cs with
    | some (orig, rest) =>
      if rest.all isDigitC then
        some (String.mk orig, if rest.isEmpty then none else some (readNum 0 rest).1)
      else tryTags ts cs
    | none => tryTags ts cs

def readTagNum (cs : List Char) : Option (String × Option Nat) := tryTags tagCandidates cs

def parseVersionChars (cs : List Char) : Option Version :=
  match readNat cs with
  | none => none
  | some (maj, r1) =>
    match readOptDotNat r1 with
    | none => none
    | some (mn, r2) =>
      match readOptDotNat r2 with
      | none => none
      | some (pt, r3) =>
        if r3.isEmpty then some ⟨maj, mn.getD 0, pt.getD 0, none, none⟩
        else
          match readTagNum r3 with
          | none => none
          | some (tag, num) => some ⟨maj, mn.getD 0, pt.getD 0, some tag, num⟩

def parseVersionStr (s : String) : Option Version :=
  parseVersionChars (trimChars s.data)

/- ===== VersionOperator and VersionConstraint (version.py) ===== -/

inductive VersionOperator where
  | eq | ne | ge | gt | le | lt | compat
deriving DecidableEq, Repr

def opValue : VersionOperator → String
  | .eq => "=="
  | .ne => "!="
  | .ge => ">="
  | .gt => ">"
  | .le => "<="
  | .lt => "<"
  | .compat => "~="

structure VersionConstraint where
  operator : VersionOperator
  version : Version
deriving DecidableEq, Repr

def constraintToString (c : VersionConstraint) : String :=
  opValue c.operator ++ versionToString c.version

/- VersionConstraint.is_satisfied_by -/
def isSatisfiedBy (c : VersionConstraint) (v : Version) : Bool :=
  match c.operator with
  | .eq => vBeq v c.version
  | .ne => !(vBeq v c.version)
  | .ge => vGe v c.version
  | .gt => vGt v c.version
  | .le => vLe v c.version
  | .lt => vLt v c.version
  | .compat =>
    if vLt v c.version then false
    else
      let upper : Version :=
        if c.version.patch > 0 then ⟨c.version.major, c.version.minor + 1, 0, none, none⟩
        else ⟨c.version.major + 1, 0, 0, none, none⟩
      vLt v upper

/- parse_version_constraint: operators tried longest first
   (Python sorted is stable: ==, !=, >=, <=, ~= then >, <). -/
def opTryOrder : List VersionOperator :=
  [.eq, .ne, .ge, .le, .compat, .gt, .lt]

def findOpMatch : List VersionOperator → List Char → Option (VersionOperator × List Char)
  | [], _ => none
  | op :: ops, cs =>
    if (opValue op).data.isPrefixOf cs then
      some (op, cs.drop (opValue op).data.length)
    else findOpMatch ops cs

def parseVersionConstraintChars (cs : List Char) : Option VersionConstraint :=
  let cs := trimChars cs
  match findOpMatch opTryOrder cs with
  | some (op, rest) =>
    match parseVersionChars (trimChars rest) with
    | some v => some ⟨op, v⟩
    | none => none
  | none =>
    match parseVersionChars cs with
    | some v => some ⟨.eq, v⟩
    | none => none

def parseVersionConstraintStr (s : String) : Option VersionConstraint :=
  parseVersionConstraintChars s.data

/- parse_constraints (version.py): comma-separated, empty parts skipped,
   any malformed part raises (None here). -/
def parseConstraintParts : List (List Char) → Option (List VersionConstraint)
  | [] => some []
  | p :: ps =>
    let t := trimChars p
    if t.isEmpty then parseConstraintParts ps
    else
      match parseVersionConstraintChars t with
      | none => none
      | some c =>
        match parseConstraintParts ps with
        | some rest => some (c :: rest)
        | none => none

def parseConstraintsStr (s : String) : Option (List VersionConstraint) :=
  parseConstraintParts (splitCommaChars s.data)

/- ===== constraints_are_compatible / _get_constraint_range (version.py) ===== -/

def rangeStep (acc : Option Version × Option Version) (c : VersionConstraint) :
    Option Version × Option Version :=
  match c.operator with
  | .ge | .gt | .compat =>
    (match acc.1 with
     | none => (some c.version, acc.2)
     | some m => if vGt c.version m then (some c.version, acc.2) else acc)
  | .le | .lt =>
    (match acc.2 with
     | none => (acc.1, some c.version)
     | some m => if vLt c.version m then (acc.1, some c.version) else acc)
  | .eq => (some c.version, some c.version)
  | .ne => acc

def getConstraintRange (cs : List VersionConstraint) : Option Version × Option Version :=
  cs.foldl rangeStep (none, none)

def exceedsB : Option Version → Option Version → Bool
  | some a, some b => vGt a b
  | _, _ => false

def constraintsAreCompatible (c1 c2 : List VersionConstraint) : Bool :=
  let r1 := getConstraintRange c1
  let r2 := getConstraintRange c2
  !(exceedsB r1.1 r2.2) && !(exceedsB r2.1 r1.2)

/- ===== normalize_package_name (parser.py):
   re.sub("[-_.]+", "-", name.lower()).strip("-") ===== -/

def collapseSeps : List Char → List Char
  | [] => []
  | [c] => if isSepC c then ['-'] else [c]
  | c :: c2 :: cs =>
    if isSepC c then
      if isSepC c2 then collapseSeps (c2 :: cs) else '-' :: collapseSeps (c2 :: cs)
    else c :: collapseSeps (c2 :: cs)

def stripDashes (l : List Char) : List Char :=
  ((l.dropWhile (· = '-')).reverse.dropWhile (· = '-')).reverse

def normalizePackageName (s : String) : String :=
  String.mk (stripDashes (collapseSeps (lowerChars s.data)))

/- ===== Requirement and parse_requirement (parser.py) ===== -/

structure Requirement where
  name : String
  constraints : List VersionConstraint := []
  extras : List String := []
  marker : Option String := none
  original : String := ""
deriving DecidableEq, Repr

def Requirement.normalizedName (r : Requirement) : String :=
  normalizePackageName r.name

/- ",".join(strings) -/
def joinComma : List String → String
  | [] => ""
  | x :: xs => xs.foldl (fun a b => a ++ "," ++ b) x

/- Requirement.__str__ / to_pip_string (identical bodies). -/
def toPipString (r : Requirement) : String :=
  let s := r.name
  let s := if r.extras.isEmpty then s else s ++ "[" ++ joinComma r.extras ++ "]"
  let s := if r.constraints.isEmpty then s
           else s ++ joinComma (r.constraints.map constraintToString)
  match r.marker with
  | some m => if m = "" then s else s ++ "; " ++ m
  | none => s

/- re.search(r"\[([^\]]+)\]", -): content of the first bracket group with
   non-empty content. -/
def firstBracketContent : List Char → Option (List Char)
  | [] => none
  | c :: cs =>
    if c = '[' then
      match splitFirst ']' cs with
      | some ([], _) => firstBracketContent cs
      | some (content, _) => some content
      | none => firstBracketContent cs
    else firstBracketContent cs

/- re.sub(r"\[[^\]]+\]", "", -): remove every bracket group with non-empty content. -/
def removeBracketsAux : Nat → List Char → List Char
  | 0, l => l
  | _ + 1, [] => []
  | fuel + 1, c :: cs =>
    if c = '[' then
      match splitFirst ']' cs with
      | some ([], _) => c :: removeBracketsAux fuel cs
      | some (_, after) => removeBracketsAux fuel after
      | none => c :: removeBracketsAux fuel cs
    else c :: removeBracketsAux fuel cs

def removeBrackets (l : List Char) : List Char := removeBracketsAux l.length l

/- ^([A-Za-z0-9][-A-Za-z0-9._]*) -/
def namePrefixSplit : List Char → Option (String × List Char)
  | [] => none
  | c :: cs =>
    if isAlnumC c then
      some (String.mk (c :: (cs.takeWhile isNameC)), cs.dropWhile isNameC)
    else none

def startsWithOp (cs : List Char) : Bool :=
  opTryOrder.any (fun op => (opValue op).data.isPrefixOf cs)

/- The comma splitting of the constraint part: each segment stripped, empty
   segments skipped, segments that fail to parse skipped (try/except: pass). -/
def parseSegments (cs : List Char) : List VersionConstraint :=
  (splitCommaChars cs).filterMap (fun p =>
    let t := trimChars p
    if t.isEmpty then none else parseVersionConstraintChars t)

/- The name/version part of parse_requirement after marker and extras handling. -/
def parseReqCore (body : List Char) (extras : List String) (marker : Option String) :
    Option Requirement :=
  match namePrefixSplit body with
  | some (nm, rest) =>
    if rest.isEmpty || startsWithOp rest then
      some ⟨nm, parseSegments rest, extras, marker, String.mk body⟩
    else
      -- full regex fails; fall back to extracting just the name
      some ⟨nm, [], extras, marker, String.mk body⟩
  | none => none

def parseRequirement (line : String) : Option Requirement :=
  let req := trimChars line.data
  if req.isEmpty || req.headD ' ' = '#' then none
  else if req.headD ' ' = '-' then none
  else
    let (body0, marker) :=
      match splitFirst ';' req with
      | some (b, a) => (trimChars b, some (String.mk (trimChars a)))
      | none => (req, none)
    let extras : List String :=
      match firstBracketContent body0 with
      | some content => (splitCommaChars content).map (fun l => trimStr (String.mk l))
      | none => []
    let body :=
      match firstBracketContent body0 with
      | some _ => removeBrackets body0
      | none => body0
    parseReqCore body extras marker

/- ===== resolver.py ===== -/

inductive ConflictResolution where
  | user_override | dockrion_wins | merged | error
deriving DecidableEq, Repr

inductive DependencyType where
  | core | runtime | framework | optional | user
deriving DecidableEq, Repr

structure ResolvedDependency where
  package : String
  constraint : String
  resolution : ConflictResolution
  source : String
  original_user : Option String := none
  original_dockrion : Option String := none
deriving DecidableEq, Repr

structure ConflictInfo where
  package : String
  user_constraint : String
  dockrion_constraint : String
  resolution_hints : List String
deriving DecidableEq, Repr

/- A merge/resolve call can abort with DependencyConflictError or with
   ValueError (from parse_constraints on a malformed platform constraint). -/
inductive MergeErr where
  | conflict (e : ConflictInfo)
  | valueError
deriving DecidableEq, Repr

def conflictHints (dockrionConstraint : String) : List String :=
  ["Update your requirement to satisfy " ++ dockrionConstraint,
   "Remove the version constraint to use dockrion\x27s default",
   "Check dockrion\x27s compatibility matrix for supported versions"]

/- Fallback platform tables (resolver.py). -/
def fallbackCoreDependencies : List (String × String) :=
  [("pydantic", ">=2.5"), ("pyyaml", ">=6.0"), ("jinja2", ">=3.1.0"),
   ("typer", ">=0.12.0"), ("rich", ">=13.7.0"), ("requests", ">=2.31")]

def fallbackRuntimeDependencies : List (String × String) :=
  [("fastapi", ">=0.109.0"), ("uvicorn", ">=0.27.0"), ("prometheus-client", ">=0.20"),
   ("httpx", ">=0.26.0"), ("aiohttp", ">=3.9.0")]

def fallbackFrameworkDependencies : List (String × List (String × String)) :=
  [("langgraph", [("langgraph", ">=0.0.20"), ("langchain-core", ">=0.1.0")]),
   ("langchain", [("langchain", ">=0.1.0"), ("langchain-core", ">=0.1.0")]),
   ("crewai", [("crewai", ">=0.28.0"), ("crewai-tools", ">=0.2.0")]),
   ("autogen", [("pyautogen", ">=0.2.0")]),
   ("llamaindex", [("llama-index", ">=0.10.0"), ("llama-index-core", ">=0.10.0")])]

def optionalDependencies : List (String × String) :=
  [("langfuse", ">=2.0.0"), ("langsmith", ">=0.1.0"), ("regex", ">=2023.12.0")]

def lookupA {β : Type} : String → List (String × β) → Option β
  | _, [] => none
  | k, (k', v) :: rest => if k = k' then some v else lookupA k rest

/- VersionResolver._build_dockrion_deps: normalized name -> (constraint, type). -/
def buildDockrionDeps (framework : Option String) : List (String × String × DependencyType) :=
  (fallbackCoreDependencies.map
    (fun p => (normalizePackageName p.1, p.2, DependencyType.core))) ++
  (fallbackRuntimeDependencies.map
    (fun p => (normalizePackageName p.1, p.2, DependencyType.runtime))) ++
  (match framework with
   | some fw =>
     match lookupA fw fallbackFrameworkDependencies with
     | some deps => deps.map
        (fun p => (normalizePackageName p.1, p.2, DependencyType.framework))
     | none => []
   | none => []) ++
  (optionalDependencies.map
    (fun p => (normalizePackageName p.1, p.2, DependencyType.optional)))

/- VersionResolver.get_dependency_type (normalizes its argument again). -/
def getDependencyType (deps : List (String × String × DependencyType)) (pkg : String) :
    DependencyType :=
  match lookupA (normalizePackageName pkg) deps with
  | some (_, t) => t
  | none => .user

def userOverrideOf (r : Requirement) (origDockrion : Option String) : ResolvedDependency :=
  { package := r.name, constraint := toPipString r, resolution := .user_override,
    source := "user", original_user := some (toPipString r),
    original_dockrion := origDockrion }

/- VersionResolver.resolve -/
def resolve (deps : List (String × String × DependencyType)) (user_req : Requirement)
    (dockrion_constraint : Option String) : Except MergeErr ResolvedDependency :=
  let normalized_name := user_req.normalizedName
  let dep_type := getDependencyType deps normalized_name
  if dep_type = .user then .ok (userOverrideOf user_req none)
  else
    let dc : Option String :=
      match dockrion_constraint with
      | some c => some c
      | none => (lookupA normalized_name deps).map (fun p => p.1)
    match dc with
    | none => .ok (userOverrideOf user_req none)
    | some c =>
      let user_constraint_str := joinComma (user_req.constraints.map constraintToString)
      if user_constraint_str = "" then
        .ok { package := user_req.name, constraint := user_req.name ++ c,
              resolution := .dockrion_wins, source := "dockrion",
              original_user := some (toPipString user_req),
              original_dockrion := some (normalized_name ++ c) }
      else
        match parseConstraintsStr c with
        | none => .error .valueError
        | some dcs =>
          if constraintsAreCompatible user_req.constraints dcs then
            .ok (userOverrideOf user_req (some (normalized_name ++ c)))
          else
            match dep_type with
            | .core | .runtime =>
              .error (.conflict
                { package := user_req.name,
                  user_constraint := toPipString user_req,
                  dockrion_constraint := normalized_name ++ c,
                  resolution_hints := conflictHints c })
            | .framework =>
              .ok { package := user_req.name, constraint := user_req.name ++ c,
                    resolution := .dockrion_wins, source := "dockrion",
                    original_user := some (toPipString user_req),
                    original_dockrion := some (normalized_name ++ c) }
            | _ =>
              .ok (userOverrideOf user_req (some (normalized_name ++ c)))

/- ===== merger.py ===== -/

structure MergeResult where
  requirements : List String
  resolutions : List (String × ResolvedDependency)
  warnings : List String
  user_overrides : List String
  dockrion_versions : List String
deriving DecidableEq, Repr

/- DependencyMerger.get_dockrion_requirements for a given framework and flags
   (fallback tables; framework keys are disjoint from core/runtime/optional,
   so dict update is list append). -/
def getDockrionRequirements (framework : String) (obsLangfuse obsLangsmith safety : Bool) :
    List (String × String) :=
  fallbackCoreDependencies ++ fallbackRuntimeDependencies ++
  (match lookupA framework fallbackFrameworkDependencies with
   | some deps => deps
   | none => []) ++
  (if obsLangfuse then [("langfuse", ">=2.0.0")] else []) ++
  (if obsLangsmith then [("langsmith", ">=0.1.0")] else []) ++
  (if safety then [("regex", ">=2023.12.0")] else [])

/- Duplicate user requirements merge constraints and union extras in order. -/
def insertUserReq (m : List (String × Requirement)) (r : Requirement) :
    List (String × Requirement) :=
  let n := r.normalizedName
  match lookupA n m with
  | some _ =>
    m.map (fun e =>
      if e.1 = n then
        (e.1, { e.2 with
                constraints := e.2.constraints ++ r.constraints,
                extras := r.extras.foldl
                  (fun acc ex => if ex ∈ acc then acc else acc ++ [ex]) e.2.extras })
      else e)
  | none => m ++ [(n, r)]

def buildUserReqMap (rs : List Requirement) : List (String × Requirement) :=
  rs.foldl insertUserReq []

structure MState where
  reqs : List String
  resolutions : List (String × ResolvedDependency)
  warnings : List String
  user_overrides : List String
  dockrion_versions : List String
  processed : List String
deriving DecidableEq, Repr

def initMState : MState := ⟨[], [], [], [], [], []⟩

def dockrionWinsWarning (package c origUser : String) : String :=
  "Using dockrion\x27s version for " ++ package ++ ": " ++ c ++
  " (you specified " ++ origUser ++ ")"

/- One iteration of the user loop of DependencyMerger.merge. -/
def userStep (dreqs : List (String × String)) (deps : List (String × String × DependencyType))
    (st : MState) (e : String × Requirement) : Except MergeErr MState :=
  let n := e.1
  let user_req := e.2
  match lookupA n dreqs with
  | some c =>
    match resolve deps user_req (some c) with
    | .error err => .error err
    | .ok resolved =>
      let st :=
        match resolved.resolution with
        | .user_override =>
          { st with user_overrides := st.user_overrides ++ [resolved.package] }
        | .dockrion_wins =>
          { st with dockrion_versions := st.dockrion_versions ++ [resolved.package],
                    warnings := st.warnings ++
                      [dockrionWinsWarning resolved.package c
                        (resolved.original_user.getD "")] }
        | _ => st
      .ok { st with reqs := st.reqs ++ [resolved.constraint],
                    resolutions := st.resolutions ++ [(n, resolved)],
                    processed := st.processed ++ [n] }
  | none =>
    .ok { st with reqs := st.reqs ++ [toPipString user_req],
                  resolutions := st.resolutions ++ [(n, userOverrideOf user_req none)],
                  processed := st.processed ++ [n] }

def processUsers (dreqs : List (String × String))
    (deps : List (String × String × DependencyType)) :
    List (String × Requirement) → MState → Except MergeErr MState
  | [], st => .ok st
  | e :: es, st =>
    match userStep dreqs deps st e with
    | .error err => .error err
    | .ok st' => processUsers dreqs deps es st'

/- The synthesized platform resolution (req_str = pkg + constraint). -/
def dockEntry (pkg c : String) : ResolvedDependency :=
  { package := pkg, constraint := pkg ++ c, resolution := .dockrion_wins,
    source := "dockrion", original_dockrion := some (pkg ++ c) }

def dockStep (st : MState) (pkg c : String) : MState :=
  { st with reqs := st.reqs ++ [pkg ++ c],
            resolutions := st.resolutions ++
              [(normalizePackageName pkg, dockEntry pkg c)],
            dockrion_versions := st.dockrion_versions ++ [pkg],
            processed := st.processed ++ [normalizePackageName pkg] }

/- The loop adding platform packages the user did not mention. -/
def processDockrion : List (String × String) → MState → MState
  | [], st => st
  | (pkg, c) :: rest, st =>
    if normalizePackageName pkg ∈ st.processed then processDockrion rest st
    else processDockrion rest (dockStep st pkg c)

def metaResolved (metaPkg : String) : ResolvedDependency :=
  { package := "dockrion", constraint := metaPkg, resolution := .dockrion_wins,
    source := "dockrion", original_dockrion := some metaPkg }

/- Appending the dockrion meta-package when absent. -/
def processMeta (metaPkg : String) (st : MState) : MState :=
  let dn := normalizePackageName "dockrion"
  if dn ∈ st.processed then st
  else
    { st with reqs := st.reqs ++ [metaPkg],
              resolutions := st.resolutions ++ [(dn, metaResolved metaPkg)],
              dockrion_versions := st.dockrion_versions ++ ["dockrion"],
              processed := st.processed ++ [dn] }

/- DependencyMerger.merge over an already-collected user requirement list. -/
def merge (deps : List (String × String × DependencyType))
    (dreqs : List (String × String)) (metaPkg : String)
    (users : List Requirement) : Except MergeErr MergeResult :=
  let m := buildUserReqMap users
  match processUsers dreqs deps m initMState with
  | .error e => .error e
  | .ok st =>
    let st := processMeta metaPkg (processDockrion dreqs st)
    .ok ⟨st.reqs, st.resolutions, st.warnings, st.user_overrides, st.dockrion_versions⟩

/- ===== Spec-side definitions, written from the claims of the specification,
   to be compared with the source-derived definitions above ===== -/

/- C3: the claimed interval computation. Every GE/GT/COMPAT contributes only a
   lower bound keeping the highest version, every LE/LT only an upper bound
   keeping the lowest, every EQ sets both min and max to its version. -/
def specLowerBound (lo : Option Version) (v : Version) : Option Version :=
  match lo with
  | none => some v
  | some m => if vGt v m then some v else some m

def specUpperBound (hi : Option Version) (v : Version) : Option Version :=
  match hi with
  | none => some v
  | some m => if vLt v m then some v else some m

def specRangeGo :
    Option Version × Option Version → List VersionConstraint →
    Option Version × Option Version
  | mm, [] => mm
  | (lo, hi), c :: cs =>
    match c.operator with
    | .ge | .gt | .compat => specRangeGo (specLowerBound lo c.version, hi) cs
    | .le | .lt => specRangeGo (lo, specUpperBound hi c.version) cs
    | .eq => specRangeGo (some c.version, some c.version) cs
    | .ne => specRangeGo (lo, hi) cs

def specRange (cs : List VersionConstraint) : Option Version × Option Version :=
  specRangeGo (none, none) cs

/- C3: "one list's min exceeds the other list's max"; a missing bound is
   unbounded and never exceeds or is exceeded. -/
def specExceeds : Option Version → Option Version → Prop
  | some a, some b => vGt a b = true
  | _, _ => False

/- C4: the claimed pre-release order: alpha -> -3, beta -> -2, rc -> -1
   (the grammar's rc|c class), final release -> 0. -/
def specPreOrder : Option String → Int
  | none => 0
  | some s =>
    if lowerStr s = "a" ∨ lowerStr s = "alpha" then -3
    else if lowerStr s = "b" ∨ lowerStr s = "beta" then -2
    else -1

/- C4: the claimed 5-tuple (major, minor, patch, preOrder, preNum), with
   preNum defaulting to 0. -/
def specTuple (v : Version) : Nat × Nat × Nat × Int × Nat :=
  match v.pre_release with
  | none => (v.major, v.minor, v.patch, 0, 0)
  | some _ =>
    (v.major, v.minor, v.patch, specPreOrder v.pre_release, v.pre_release_num.getD 0)

/- C4: lexicographic strict order on the claimed 5-tuples, as a proposition. -/
def specTupleLt (a b : Nat × Nat × Nat × Int × Nat) : Prop :=
  a.1 < b.1 ∨ (a.1 = b.1 ∧ (a.2.1 < b.2.1 ∨ (a.2.1 = b.2.1 ∧
    (a.2.2.1 < b.2.2.1 ∨ (a.2.2.1 = b.2.2.1 ∧
      (a.2.2.2.1 < b.2.2.2.1 ∨ (a.2.2.2.1 = b.2.2.2.1 ∧
        a.2.2.2.2 < b.2.2.2.2)))))))

/- C8: the claimed normalization, a right fold collapsing separator runs after
   lower-casing (no stripping of boundary hyphens). -/
def collapseF (l : List Char) : List Char :=
  l.foldr
    (fun c acc =>
      if isSepC c then (if acc.headD ' ' = '-' then acc else '-' :: acc)
      else c :: acc) []

def claimNormalize (s : String) : String :=
  String.mk (collapseF (lowerChars s.data))

/- C9: well-formed versions per the grammar of the specification:
   tag in {a, b, rc, alpha, beta, c}. -/
def wfVersion (v : Version) : Prop :=
  v.pre_release = none ∨
  ∃ t, v.pre_release = some t ∧
    t ∈ (["a", "b", "rc", "alpha", "beta", "c"] : List String)

/- C5: the claimed per-merge invariant: unique keys, requirements in 1-1
   correspondence with resolutions, and every source package (user list,
   platform table, meta-package) appearing exactly once. -/
def mergeClaimInvariant (dreqs : List (String × String)) (users : List Requirement)
    (result : MergeResult) : Prop :=
  (result.resolutions.map Prod.fst).Nodup ∧
  result.requirements = result.resolutions.map (fun e => e.2.constraint) ∧
  (∀ r ∈ users, (result.resolutions.map Prod.fst).count r.normalizedName = 1) ∧
  (∀ p ∈ dreqs, (result.resolutions.map Prod.fst).count (normalizePackageName p.1) = 1) ∧
  (result.resolutions.map Prod.fst).count "dockrion" = 1

/- ===== Concrete instances used by the claims ===== -/

def customDeps : List (String × String × DependencyType) :=
  buildDockrionDeps (some "custom")

def customDreqs : List (String × String) :=
  getDockrionRequirements "custom" false false false

def langfuseDreqs : List (String × String) :=
  getDockrionRequirements "custom" true false false

def metaPin : String := "dockrion>=0.1.0"

def pydanticUserReq : Requirement :=
  ⟨"pydantic", [⟨.eq, ⟨1, 0, 0, none, none⟩⟩], [], none, "pydantic==1.0.0"⟩

def langfuseGeReq : Requirement :=
  ⟨"langfuse", [⟨.ge, ⟨1, 0, 0, none, none⟩⟩], [], none, "langfuse>=1.0.0"⟩

def langfuseEqReq : Requirement :=
  ⟨"langfuse", [⟨.eq, ⟨1, 0, 0, none, none⟩⟩], [], none, "langfuse==1.0.0"⟩

def resolutionView (r : MergeResult) (pkg : String) :
    Option (ConflictResolution × String) :=
  (lookupA pkg r.resolutions).map (fun e => (e.resolution, e.constraint))

def pkgNameReq1 : Requirement :=
  ⟨"Pkg_Name", [⟨.ge, ⟨1, 0, 0, none, none⟩⟩], ["extra1"], none, "Pkg_Name>=1.0.0"⟩

def pkgNameReq2 : Requirement :=
  ⟨"pkg-name", [⟨.lt, ⟨2, 0, 0, none, none⟩⟩], ["extra2"], none, "pkg-name<2.0.0"⟩

def pkgNameMerged : Requirement :=
  ⟨"Pkg_Name", [⟨.ge, ⟨1, 0, 0, none, none⟩⟩, ⟨.lt, ⟨2, 0, 0, none, none⟩⟩],
   ["extra1", "extra2"], none, "Pkg_Name>=1.0.0"⟩

def mergeOkOrDefault (x : Except MergeErr MergeResult) : MergeResult :=
  match x with
  | .ok r => r
  | .error _ => ⟨[], [], [], [], []⟩

def mergeEmptyResult : MergeResult :=
  mergeOkOrDefault (merge customDeps customDreqs metaPin [])

/- ===== Helper lemmas ===== -/

theorem vGe_eq_not_vLt (a b : Version) : vGe a b = !(vLt a b) := rfl

theorem rangeStep_eq (lo hi : Option Version) (c : VersionConstraint) :
    rangeStep (lo, hi) c =
      match c.operator with
      | .ge | .gt | .compat => (specLowerBound lo c.version, hi)
      | .le | .lt => (lo, specUpperBound hi c.version)
      | .eq => (some c.version, some c.version)
      | .ne => (lo, hi) := by
  obtain ⟨op, ver⟩ := c
  cases op <;> cases lo <;> cases hi <;>
    simp [rangeStep, specLowerBound, specUpperBound] <;> split <;> rfl

theorem range_foldl_spec (cs : List VersionConstraint) :
    ∀ acc, List.foldl rangeStep acc cs = specRangeGo acc cs := by
  induction cs with
  | nil => intro acc; rfl
  | cons c cs ih =>
    intro acc
    obtain ⟨lo, hi⟩ := acc
    rw [List.foldl_cons, rangeStep_eq, ih]
    cases hop : c.operator <;> simp [specRangeGo, hop]

theorem getConstraintRange_eq_specRange (cs : List VersionConstraint) :
    getConstraintRange cs = specRange cs :=
  range_foldl_spec cs (none, none)

theorem exceedsB_eq_true_iff (a b : Option Version) :
    exceedsB a b = true ↔ specExceeds a b := by
  cases a <;> cases b <;> simp [exceedsB, specExceeds]

theorem ne_range_foldl (cs : List VersionConstraint) :
    ∀ acc, (∀ c ∈ cs, c.operator = .ne) → List.foldl rangeStep acc cs = acc := by
  induction cs with
  | nil => intro acc _; rfl
  | cons c cs ih =>
    intro acc h
    rw [List.foldl_cons]
    have hc : c.operator = .ne := h c (List.mem_cons_self c cs)
    have : rangeStep acc c = acc := by
      obtain ⟨lo, hi⟩ := acc
      simp [rangeStep, hc]
    rw [this]
    exact ih acc (fun c' hc' => h c' (List.mem_cons_of_mem c hc'))

theorem ne_getConstraintRange (cs : List VersionConstraint)
    (h : ∀ c ∈ cs, c.operator = .ne) : getConstraintRange cs = (none, none) :=
  ne_range_foldl cs (none, none) h

theorem ne_compat_left (cs cs2 : List VersionConstraint)
    (h : ∀ c ∈ cs, c.operator = .ne) :
    constraintsAreCompatible cs cs2 = true := by
  unfold constraintsAreCompatible
  rw [ne_getConstraintRange cs h]
  cases hr : getConstraintRange cs2 with
  | mk lo hi => cases lo <;> cases hi <;> simp [exceedsB]

theorem ne_compat_right (cs cs2 : List VersionConstraint)
    (h : ∀ c ∈ cs, c.operator = .ne) :
    constraintsAreCompatible cs2 cs = true := by
  unfold constraintsAreCompatible
  rw [ne_getConstraintRange cs h]
  cases hr : getConstraintRange cs2 with
  | mk lo hi => cases lo <;> cases hi <;> simp [exceedsB]

theorem resolve_allNE_no_conflict
    (deps : List (String × String × DependencyType)) (r : Requirement) (c : String)
    (e : ConflictInfo) (hne : ∀ cc ∈ r.constraints, cc.operator = .ne) :
    resolve deps r (some c) ≠ .error (.conflict e) := by
  unfold resolve
  dsimp only
  split
  · simp
  · split
    · simp
    · split
      · simp
      · next dcs _ =>
        rw [if_pos (ne_compat_left r.constraints dcs hne)]
        simp

/- ===== Claim theorems ===== -/

/-- C3: the compatibility check derives for each constraint list an effective
[min, max] interval (GE/GT/COMPAT keep the highest lower bound, LE/LT the
lowest upper bound, EQ pins both), and two lists are compatible iff neither
list's min strictly exceeds the other's max, a missing bound being unbounded. -/
theorem c3_range_overlap_compatibility :
    (∀ cs : List VersionConstraint, getConstraintRange cs = specRange cs) ∧
    (∀ c1 c2 : List VersionConstraint,
      constraintsAreCompatible c1 c2 = true ↔
        (¬ specExceeds (specRange c1).1 (specRange c2).2 ∧
         ¬ specExceeds (specRange c2).1 (specRange c1).2)) := by
  refine ⟨getConstraintRange_eq_specRange, ?_⟩
  intro c1 c2
  unfold constraintsAreCompatible
  rw [getConstraintRange_eq_specRange c1, getConstraintRange_eq_specRange c2]
  rw [Bool.and_eq_true, Bool.not_eq_true', Bool.not_eq_true']
  rw [← Bool.not_eq_true (exceedsB (specRange c1).1 (specRange c2).2),
      ← Bool.not_eq_true (exceedsB (specRange c2).1 (specRange c1).2)]
  rw [exceedsB_eq_true_iff, exceedsB_eq_true_iff]

/-- C2 (amended): a compatible-release constraint ~=X.Y.Z with parsed patch
Z > 0 is satisfied by v iff v >= X.Y.Z and v < X.(Y+1).0, and with parsed
patch 0 (in particular a constraint written ~=X.Y) iff v >= X.Y.0 and
v < (X+1).0.0; the concrete examples of the claim hold. -/
theorem c2_compat_release_semantics :
    (∀ (X Y Z : Nat) (v : Version), 0 < Z →
      (isSatisfiedBy ⟨.compat, ⟨X, Y, Z, none, none⟩⟩ v = true ↔
        (vGe v ⟨X, Y, Z, none, none⟩ = true ∧ vLt v ⟨X, Y + 1, 0, none, none⟩ = true))) ∧
    (∀ (X Y : Nat) (v : Version),
      isSatisfiedBy ⟨.compat, ⟨X, Y, 0, none, none⟩⟩ v = true ↔
        (vGe v ⟨X, Y, 0, none, none⟩ = true ∧ vLt v ⟨X + 1, 0, 0, none, none⟩ = true)) ∧
    ((parseVersionConstraintStr "~=1.2.3").map (fun c =>
        (isSatisfiedBy c ⟨1, 2, 9, none, none⟩, isSatisfiedBy c ⟨1, 2, 3, none, none⟩,
         isSatisfiedBy c ⟨1, 3, 0, none, none⟩, isSatisfiedBy c ⟨1, 2, 2, none, none⟩)) =
      some (true, true, false, false)) ∧
    ((parseVersionConstraintStr "~=1.2").map (fun c =>
        (isSatisfiedBy c ⟨1, 9, 0, none, none⟩, isSatisfiedBy c ⟨2, 0, 0, none, none⟩)) =
      some (true, false)) := by
  refine ⟨?_, ?_, by decide, by decide⟩
  · intro X Y Z v hZ
    cases hlt : vLt v ⟨X, Y, Z, none, none⟩ with
    | false => simp [isSatisfiedBy, hlt, vGe_eq_not_vLt, hZ]
    | true => simp [isSatisfiedBy, hlt, vGe_eq_not_vLt]
  · intro X Y v
    cases hlt : vLt v ⟨X, Y, 0, none, none⟩ with
    | false => simp [isSatisfiedBy, hlt, vGe_eq_not_vLt]
    | true => simp [isSatisfiedBy, hlt, vGe_eq_not_vLt]

/-- C2 counterexample: the constraint parsed from "~=1.2.0" (patch explicitly
supplied as 0) is satisfied by 1.5.0 in the code, although 1.5.0 is not below
1.3.0, contradicting the claimed upper bound X.(Y+1).0 for every explicitly
supplied patch. -/
theorem c2_counterexample :
    parseVersionConstraintStr "~=1.2.0" = some ⟨.compat, ⟨1, 2, 0, none, none⟩⟩ ∧
    (parseVersionConstraintStr "~=1.2.0").map
      (fun c => isSatisfiedBy c ⟨1, 5, 0, none, none⟩) = some true ∧
    vLt ⟨1, 5, 0, none, none⟩ ⟨1, 3, 0, none, none⟩ = false := by
  decide

/-- C2 witness: the amended rule instantiated at ~=1.2.3 and version 1.2.9. -/
theorem c2_witness :
    isSatisfiedBy ⟨.compat, ⟨1, 2, 3, none, none⟩⟩ ⟨1, 2, 9, none, none⟩ = true :=
  (c2_compat_release_semantics.1 1 2 3 ⟨1, 2, 9, none, none⟩ (by decide)).mpr (by decide)

/-- C10: the range computation ignores NE constraints: an all-NE constraint
list yields the unbounded interval, is compatible with every other list in
both directions, and a resolve call for such a user requirement never raises
a conflict error, whatever the platform constraint is. -/
theorem c10_ne_constraints_ignored :
    (∀ cs : List VersionConstraint,
      (∀ c ∈ cs, c.operator = .ne) → getConstraintRange cs = (none, none)) ∧
    (∀ cs cs2 : List VersionConstraint, (∀ c ∈ cs, c.operator = .ne) →
      constraintsAreCompatible cs cs2 = true ∧ constraintsAreCompatible cs2 cs = true) ∧
    (∀ (deps : List (String × String × DependencyType)) (r : Requirement)
       (c : String) (e : ConflictInfo), (∀ cc ∈ r.constraints, cc.operator = .ne) →
      resolve deps r (some c) ≠ .error (.conflict e)) :=
  ⟨ne_getConstraintRange,
   fun cs cs2 h => ⟨ne_compat_left cs cs2 h, ne_compat_right cs cs2 h⟩,
   fun deps r c e h => resolve_allNE_no_conflict deps r c e h⟩

/-- C10 witness: a pure not-equal requirement for the Core package pydantic
resolves without a conflict error against the platform pin. -/
theorem c10_witness :
    resolve customDeps ⟨"pydantic", [⟨.ne, ⟨1, 0, 0, none, none⟩⟩], [], none, ""⟩
      (some ">=2.5") ≠
    .error (.conflict ⟨"pydantic", "pydantic!=1.0.0", "pydantic>=2.5", conflictHints ">=2.5"⟩) :=
  c10_ne_constraints_ignored.2.2 customDeps
    ⟨"pydantic", [⟨.ne, ⟨1, 0, 0, none, none⟩⟩], [], none, ""⟩ ">=2.5"
    ⟨"pydantic", "pydantic!=1.0.0", "pydantic>=2.5", conflictHints ">=2.5"⟩
    (by decide)

/- ===== C8 helper lemmas: the two collapse formulations agree ===== -/

theorem collapseF_cons (c : Char) (cs : List Char) :
    collapseF (c :: cs) =
      if isSepC c then
        (if (collapseF cs).headD ' ' = '-' then collapseF cs else '-' :: collapseF cs)
      else c :: collapseF cs := rfl

theorem collapseF_head_sep (c : Char) (cs : List Char) (h : isSepC c = true) :
    (collapseF (c :: cs)).headD ' ' = '-' := by
  rw [collapseF_cons, if_pos h]
  split
  · assumption
  · rfl

theorem collapseF_head_nonsep (c : Char) (cs : List Char) (h : isSepC c = false) :
    (collapseF (c :: cs)).headD ' ' = c := by
  rw [collapseF_cons, if_neg (by simp [h])]
  rfl

theorem collapseSeps_eq_collapseF : ∀ l : List Char, collapseSeps l = collapseF l := by
  intro l
  induction l with
  | nil => rfl
  | cons c cs ih =>
    cases cs with
    | nil =>
      by_cases h : isSepC c = true
      · rw [collapseF_cons, if_pos h]
        simp [collapseSeps, h, collapseF]
      · have h' : isSepC c = false := by
          cases hb : isSepC c
          · rfl
          · exact absurd hb h
        rw [collapseF_cons, if_neg (by simp [h'])]
        simp [collapseSeps, h', collapseF]
    | cons c2 cs2 =>
      by_cases h : isSepC c = true
      · by_cases h2 : isSepC c2 = true
        · have e1 : collapseSeps (c :: c2 :: cs2) = collapseSeps (c2 :: cs2) := by
            simp [collapseSeps, h, h2]
          rw [e1, ih, collapseF_cons c (c2 :: cs2), if_pos h,
              if_pos (collapseF_head_sep c2 cs2 h2)]
        · have h2' : isSepC c2 = false := by
            cases hb : isSepC c2
            · rfl
            · exact absurd hb h2
          have hc2 : c2 ≠ '-' := by
            intro hh
            rw [hh] at h2'
            simp [isSepC] at h2'
          have e1 : collapseSeps (c :: c2 :: cs2) = '-' :: collapseSeps (c2 :: cs2) := by
            simp [collapseSeps, h, h2']
          rw [e1, ih, collapseF_cons c (c2 :: cs2), if_pos h,
              collapseF_head_nonsep c2 cs2 h2', if_neg hc2]
      · have h' : isSepC c = false := by
          cases hb : isSepC c
          · rfl
          · exact absurd hb h
        have e1 : collapseSeps (c :: c2 :: cs2) = c :: collapseSeps (c2 :: cs2) := by
          simp [collapseSeps, h']
        rw [e1, ih, collapseF_cons c (c2 :: cs2),
            if_neg (show ¬(isSepC c = true) by simp [h'])]

/-- C8 counterexample: normalize("pkg.") strips the trailing hyphen produced by
the collapse, so the output differs from the claimed pure lower-case-and-
collapse formula, which would give "pkg-". -/
theorem c8_counterexample :
    normalizePackageName "pkg." = "pkg" ∧
    claimNormalize "pkg." = "pkg-" ∧
    normalizePackageName "pkg." ≠ claimNormalize "pkg." := by
  decide

/-- C8 (amended): normalize lower-cases the input, replaces every maximal run
of hyphen/underscore/dot by a single hyphen, and then strips leading and
trailing hyphens; requirements merge into one entry exactly when their
normalized names are equal, and the Pkg_Name / pkg-name lines merge into a
single requirement with unioned constraints and extras. -/
theorem c8_normalize_and_dedup :
    (∀ s : String,
      normalizePackageName s = String.mk (stripDashes (claimNormalize s).data)) ∧
    (∀ (m : List (String × Requirement)) (r : Requirement),
      (insertUserReq m r).map Prod.fst =
        if (lookupA r.normalizedName m).isSome then m.map Prod.fst
        else m.map Prod.fst ++ [r.normalizedName]) ∧
    parseRequirement "Pkg_Name[extra1]>=1.0.0" = some pkgNameReq1 ∧
    parseRequirement "pkg-name[extra2]<2.0.0" = some pkgNameReq2 ∧
    buildUserReqMap [pkgNameReq1, pkgNameReq2] = [("pkg-name", pkgNameMerged)] := by
  refine ⟨?_, ?_, by decide, by decide, by decide⟩
  · intro s
    unfold normalizePackageName claimNormalize
    rw [collapseSeps_eq_collapseF]
  · intro m r
    unfold insertUserReq
    cases hl : lookupA r.normalizedName m with
    | some v =>
      simp only [hl, Option.isSome_some, if_pos]
      rw [List.map_map]
      apply List.map_congr_left
      intro e _
      by_cases hk : e.1 = r.normalizedName <;> simp [hk]
    | none =>
      simp [hl]

/- ===== C7 ===== -/

/-- C7: when the package name parses, each malformed comma-separated constraint
segment is skipped rather than failing the line: the parser still returns a
Requirement carrying the name, extras, marker and every segment that parsed;
concretely, "pkg>=1.0.0,banana,<2.0.0" keeps its two valid constraints. -/
theorem c7_segment_skipping :
    (∀ (body : List Char) (extras : List String) (marker : Option String)
       (nm : String) (rest : List Char),
      namePrefixSplit body = some (nm, rest) →
      (rest.isEmpty || startsWithOp rest) = true →
      parseReqCore body extras marker =
        some ⟨nm, parseSegments rest, extras, marker, String.mk body⟩) ∧
    (∀ (body : List Char) (extras : List String) (marker : Option String)
       (nm : String) (rest : List Char),
      namePrefixSplit body = some (nm, rest) →
      ∃ r, parseReqCore body extras marker = some r ∧
        r.name = nm ∧ r.extras = extras ∧ r.marker = marker) ∧
    parseRequirement "pkg>=1.0.0,banana,<2.0.0" =
      some ⟨"pkg",
        [⟨.ge, ⟨1, 0, 0, none, none⟩⟩, ⟨.lt, ⟨2, 0, 0, none, none⟩⟩],
        [], none, "pkg>=1.0.0,banana,<2.0.0"⟩ := by
  refine ⟨?_, ?_, by decide⟩
  · intro body extras marker nm rest h1 h2
    simp only [parseReqCore, h1, if_pos h2]
  · intro body extras marker nm rest h1
    simp only [parseReqCore, h1]
    split
    · exact ⟨_, rfl, rfl, rfl, rfl⟩
    · exact ⟨_, rfl, rfl, rfl, rfl⟩

/-- C7 witness: the segment-skipping branch applied to a concrete body with a
malformed middle segment. -/
theorem c7_witness :
    parseReqCore "pkg>=1.0.0,banana,<2.0.0".data [] none =
      some ⟨"pkg", parseSegments ">=1.0.0,banana,<2.0.0".data, [], none,
            String.mk "pkg>=1.0.0,banana,<2.0.0".data⟩ :=
  c7_segment_skipping.1 "pkg>=1.0.0,banana,<2.0.0".data [] none
    "pkg" ">=1.0.0,banana,<2.0.0".data (by decide) (by decide)

/- ===== C6 ===== -/

/-- C6 counterexample: for the claimed scenario (platform Optional langfuse
>=2.0.0, user langfuse>=1.0.0) the merge result records no warning at all:
its warnings list is empty, against the claimed single warning referencing
langfuse (the override is only tracked in user_overrides); moreover the two
ranges are judged compatible by the overlap check. -/
theorem c6_counterexample :
    parseRequirement "langfuse>=1.0.0" = some langfuseGeReq ∧
    (merge customDeps langfuseDreqs metaPin [langfuseGeReq]).map
      (fun r => (resolutionView r "langfuse", r.warnings, r.user_overrides)) =
      .ok (some (.user_override, "langfuse>=1.0.0"), [], ["langfuse"]) ∧
    (parseConstraintsStr ">=2.0.0").map
      (fun dcs => constraintsAreCompatible langfuseGeReq.constraints dcs) =
      some true := by
  refine ⟨by decide, by rfl, by decide⟩

/-- C6 (amended): an Optional-category user requirement whose constraint set is
incompatible with the platform constraint resolves as UserOverride with the
user's string, but the merge result records no warning: warnings stays empty
and the override is only listed in user_overrides. For the claimed langfuse
example the ranges >=1.0.0 and >=2.0.0 are in fact judged compatible, and the
compatible branch produces the same UserOverride, still with no warning. -/
theorem c6_optional_override_no_warning :
    (∀ (deps : List (String × String × DependencyType)) (r : Requirement)
       (c : String) (dcs : List VersionConstraint),
      getDependencyType deps r.normalizedName = .optional →
      joinComma (r.constraints.map constraintToString) ≠ "" →
      parseConstraintsStr c = some dcs →
      constraintsAreCompatible r.constraints dcs = false →
      resolve deps r (some c) = .ok (userOverrideOf r (some (r.normalizedName ++ c)))) ∧
    ((merge customDeps langfuseDreqs metaPin [langfuseGeReq]).map
      (fun r => (resolutionView r "langfuse", r.warnings, r.user_overrides)) =
      .ok (some (.user_override, "langfuse>=1.0.0"), [], ["langfuse"])) ∧
    ((merge customDeps langfuseDreqs metaPin [langfuseEqReq]).map
      (fun r => (resolutionView r "langfuse", r.warnings)) =
      .ok (some (.user_override, "langfuse==1.0.0"), [])) := by
  refine ⟨?_, by rfl, by rfl⟩
  intro deps r c dcs hopt hne hparse hincomp
  unfold resolve
  dsimp only
  rw [hopt]
  simp [hne, hparse, hincomp]

/-- C6 witness: the Optional-incompatible branch instantiated at the langfuse
scenario with an exactly-pinned user version. -/
theorem c6_witness :
    resolve customDeps langfuseEqReq (some ">=2.0.0") =
      .ok (userOverrideOf langfuseEqReq (some ("langfuse" ++ ">=2.0.0"))) :=
  c6_optional_override_no_warning.1 customDeps langfuseEqReq ">=2.0.0"
    [⟨.ge, ⟨2, 0, 0, none, none⟩⟩] (by decide) (by decide) (by decide) (by decide)

/- ===== C1 helper lemmas ===== -/

theorem length_le_joinFold (xs : List String) :
    ∀ x : String, x.length ≤ (xs.foldl (fun a b => a ++ "," ++ b) x).length := by
  induction xs with
  | nil => intro x; simp
  | cons y ys ih =>
    intro x
    calc x.length ≤ (x ++ "," ++ y).length := by
          rw [String.length_append, String.length_append]; omega
      _ ≤ _ := ih (x ++ "," ++ y)

theorem constraintToString_length_pos (c : VersionConstraint) :
    0 < (constraintToString c).length := by
  unfold constraintToString
  rw [String.length_append]
  have h : 0 < (opValue c.operator).length := by cases c.operator <;> decide
  omega

theorem joinComma_constraints_ne_empty (r : Requirement) (h : r.constraints ≠ []) :
    joinComma (r.constraints.map constraintToString) ≠ "" := by
  cases hc : r.constraints with
  | nil => exact absurd hc h
  | cons c cs =>
    intro heq
    have h1 : 0 < (constraintToString c).length := constraintToString_length_pos c
    have h2 := length_le_joinFold (cs.map constraintToString) (constraintToString c)
    rw [show joinComma ((c :: cs).map constraintToString) =
          (cs.map constraintToString).foldl (fun a b => a ++ "," ++ b)
            (constraintToString c) from rfl] at heq
    rw [heq] at h2
    simp at h2
    omega

theorem resolve_core_runtime_conflict
    (deps : List (String × String × DependencyType)) (r : Requirement) (c : String)
    (dcs : List VersionConstraint)
    (htype : getDependencyType deps r.normalizedName = .core ∨
             getDependencyType deps r.normalizedName = .runtime)
    (hparse : parseConstraintsStr c = some dcs)
    (hincomp : constraintsAreCompatible r.constraints dcs = false) :
    resolve deps r (some c) = .error (.conflict
      ⟨r.name, toPipString r, r.normalizedName ++ c, conflictHints c⟩) := by
  have hnil : r.constraints ≠ [] := by
    intro hnil
    rw [hnil] at hincomp
    have := ne_compat_left [] dcs (by simp)
    rw [hincomp] at this
    cases this
  have hjoin := joinComma_constraints_ne_empty r hnil
  unfold resolve
  dsimp only
  rcases htype with h | h <;> rw [h] <;> simp [hjoin, hparse, hincomp]

theorem userStep_error (dreqs : List (String × String))
    (deps : List (String × String × DependencyType)) (st : MState)
    (e : String × Requirement) (c : String) (err : MergeErr)
    (hl : lookupA e.1 dreqs = some c)
    (hr : resolve deps e.2 (some c) = .error err) :
    userStep dreqs deps st e = .error err := by
  unfold userStep
  simp only [hl, hr]

theorem processUsers_error (dreqs : List (String × String))
    (deps : List (String × String × DependencyType))
    (e : String × Requirement) (err : MergeErr)
    (hstep : ∀ st, userStep dreqs deps st e = .error err) :
    ∀ (es : List (String × Requirement)), e ∈ es →
      ∀ st, ∃ err', processUsers dreqs deps es st = .error err' := by
  intro es
  induction es with
  | nil => intro h; cases h
  | cons a as ih =>
    intro he st
    rcases List.mem_cons.mp he with rfl | hmem
    · exact ⟨err, by unfold processUsers; simp only [hstep st]⟩
    · cases hs : userStep dreqs deps st a with
      | error err2 => exact ⟨err2, by unfold processUsers; simp only [hs]⟩
      | ok st2 =>
        obtain ⟨err', h'⟩ := ih hmem st2
        exact ⟨err', by unfold processUsers; simp only [hs]; exact h'⟩

theorem insertUserReq_key_inv (m : List (String × Requirement)) (r : Requirement)
    (hm : ∀ e ∈ m, e.2.normalizedName = e.1) :
    ∀ e ∈ insertUserReq m r, e.2.normalizedName = e.1 := by
  intro e he
  unfold insertUserReq at he
  cases hl : lookupA r.normalizedName m with
  | some v =>
    simp only [hl] at he
    simp only [List.mem_map] at he
    obtain ⟨a, ha, rfl⟩ := he
    by_cases hk : a.1 = r.normalizedName
    · have hnn : a.2.normalizedName = a.1 := hm a ha
      simp only [if_pos hk]
      exact hnn
    · simp only [if_neg hk]
      exact hm a ha
  | none =>
    simp only [hl] at he
    rcases List.mem_append.mp he with h1 | h2
    · exact hm e h1
    · simp only [List.mem_singleton] at h2
      subst h2
      rfl

theorem buildUserReqMap_key (us : List Requirement) :
    ∀ e ∈ buildUserReqMap us, e.2.normalizedName = e.1 := by
  unfold buildUserReqMap
  have aux : ∀ (us : List Requirement) (m : List (String × Requirement)),
      (∀ e ∈ m, e.2.normalizedName = e.1) →
      ∀ e ∈ us.foldl insertUserReq m, e.2.normalizedName = e.1 := by
    intro us
    induction us with
    | nil => intro m hm; exact hm
    | cons r rs ih =>
      intro m hm
      rw [List.foldl_cons]
      exact ih (insertUserReq m r) (insertUserReq_key_inv m r hm)
  exact aux us [] (by intro e he; cases he)

/- ===== C1 ===== -/

/-- C1: a user requirement for a package classified Core or Runtime whose
constraint set is range-incompatible with the platform constraint makes
resolve raise a conflict error carrying the package name and both constraint
strings, and makes merge abort without a MergeResult; in particular merging
user pydantic==1.0.0 against the Core pin pydantic>=2.5 yields exactly that
conflict error. -/
theorem c1_core_runtime_conflict :
    (∀ (deps : List (String × String × DependencyType)) (r : Requirement)
       (c : String) (dcs : List VersionConstraint),
      (getDependencyType deps r.normalizedName = .core ∨
       getDependencyType deps r.normalizedName = .runtime) →
      parseConstraintsStr c = some dcs →
      constraintsAreCompatible r.constraints dcs = false →
      resolve deps r (some c) = .error (.conflict
        ⟨r.name, toPipString r, r.normalizedName ++ c, conflictHints c⟩)) ∧
    (∀ (deps : List (String × String × DependencyType))
       (dreqs : List (String × String)) (metaPkg : String)
       (users : List Requirement) (n : String) (r : Requirement)
       (c : String) (dcs : List VersionConstraint),
      (n, r) ∈ buildUserReqMap users →
      lookupA n dreqs = some c →
      (getDependencyType deps n = .core ∨ getDependencyType deps n = .runtime) →
      parseConstraintsStr c = some dcs →
      constraintsAreCompatible r.constraints dcs = false →
      ∃ e, merge deps dreqs metaPkg users = .error e) ∧
    (parseRequirement "pydantic==1.0.0" = some pydanticUserReq ∧
     merge customDeps customDreqs metaPin [pydanticUserReq] =
       .error (.conflict
         ⟨"pydantic", "pydantic==1.0.0", "pydantic>=2.5", conflictHints ">=2.5"⟩)) := by
  refine ⟨resolve_core_runtime_conflict, ?_, by decide, by rfl⟩
  intro deps dreqs metaPkg users n r c dcs hmem hl htype hparse hincomp
  have hkey : r.normalizedName = n := buildUserReqMap_key users (n, r) hmem
  have herr : resolve deps r (some c) = .error (.conflict
      ⟨r.name, toPipString r, r.normalizedName ++ c, conflictHints c⟩) := by
    apply resolve_core_runtime_conflict deps r c dcs _ hparse hincomp
    rw [hkey]
    exact htype
  have hstep : ∀ st, userStep dreqs deps st (n, r) = .error (.conflict
      ⟨r.name, toPipString r, r.normalizedName ++ c, conflictHints c⟩) :=
    fun st => userStep_error dreqs deps st (n, r) c _ hl herr
  obtain ⟨err', h'⟩ :=
    processUsers_error dreqs deps (n, r) _ hstep (buildUserReqMap users) hmem initMState
  exact ⟨err', by unfold merge; simp only [h']⟩

/-- C1 witness: the resolve-level statement instantiated at the pydantic
scenario. -/
theorem c1_witness :
    resolve customDeps pydanticUserReq (some ">=2.5") =
      .error (.conflict
        ⟨"pydantic", "pydantic==1.0.0", "pydantic>=2.5", conflictHints ">=2.5"⟩) :=
  c1_core_runtime_conflict.1 customDeps pydanticUserReq ">=2.5"
    [⟨.ge, ⟨2, 5, 0, none, none⟩⟩] (by decide) (by decide) (by decide)

/- ===== C4 helper lemmas ===== -/

theorem ordering_beq_lt_iff (o : Ordering) : (o == Ordering.lt) = true ↔ o = .lt := by
  cases o <;> simp <;> rfl

theorem ordThen_eq_lt (o p : Ordering) :
    o.then p = .lt ↔ (o = .lt ∨ (o = .eq ∧ p = .lt)) := by
  cases o <;> simp [Ordering.then]

theorem ordThen_eq_eq (o p : Ordering) :
    o.then p = .eq ↔ (o = .eq ∧ p = .eq) := by
  cases o <;> simp [Ordering.then]

theorem cmpTuple_lt_iff (a b : Nat × Nat × Nat × Int × Nat) :
    cmpTuple a b = .lt ↔ specTupleLt a b := by
  unfold cmpTuple specTupleLt
  rw [ordThen_eq_lt, ordThen_eq_lt, ordThen_eq_lt, ordThen_eq_lt,
      compare_lt_iff_lt, compare_eq_iff_eq, compare_lt_iff_lt, compare_eq_iff_eq,
      compare_lt_iff_lt, compare_eq_iff_eq, compare_lt_iff_lt, compare_eq_iff_eq,
      compare_lt_iff_lt]

theorem cmpTuple_eq_iff (a b : Nat × Nat × Nat × Int × Nat) :
    cmpTuple a b = .eq ↔ a = b := by
  unfold cmpTuple
  rw [ordThen_eq_eq, ordThen_eq_eq, ordThen_eq_eq, ordThen_eq_eq,
      compare_eq_iff_eq, compare_eq_iff_eq, compare_eq_iff_eq, compare_eq_iff_eq,
      compare_eq_iff_eq]
  obtain ⟨a1, a2, a3, a4, a5⟩ := a
  obtain ⟨b1, b2, b3, b4, b5⟩ := b
  simp [Prod.ext_iff]

theorem stripPrefixCI_lower (p : List Char) :
    ∀ (cs m r : List Char), stripPrefixCI p cs = some (m, r) →
      m.map charLower = p := by
  induction p with
  | nil =>
    intro cs m r h
    simp [stripPrefixCI] at h
    simp [h.1]
  | cons pc ps ih =>
    intro cs m r h
    cases cs with
    | nil => simp [stripPrefixCI] at h
    | cons c cs' =>
      unfold stripPrefixCI at h
      by_cases hc : charLower c = pc
      · rw [if_pos hc] at h
        cases hs : stripPrefixCI ps cs' with
        | none => rw [hs] at h; cases h
        | some pr =>
          obtain ⟨m', r'⟩ := pr
          rw [hs] at h
          simp only [Option.some.injEq, Prod.mk.injEq] at h
          obtain ⟨hm, _⟩ := h
          subst hm
          simp [List.map_cons, hc, ih cs' m' r' hs]
      · rw [if_neg hc] at h
        cases h

theorem tryTags_mem (cands : List (List Char)) :
    ∀ (cs : List Char) (t : String) (n : Option Nat),
      tryTags cands cs = some (t, n) →
      ∃ p ∈ cands, ∃ m r, stripPrefixCI p cs = some (m, r) ∧ t = String.mk m := by
  induction cands with
  | nil => intro cs t n h; cases h
  | cons p ps ih =>
    intro cs t n h
    unfold tryTags at h
    cases hs : stripPrefixCI p cs with
    | some pr =>
      obtain ⟨m, r⟩ := pr
      simp only [hs] at h
      by_cases hd : r.all isDigitC = true
      · rw [if_pos hd] at h
        simp only [Option.some.injEq, Prod.mk.injEq] at h
        exact ⟨p, by simp, m, r, hs, h.1.symm⟩
      · rw [if_neg hd] at h
        obtain ⟨q, hq, hrest⟩ := ih cs t n h
        exact ⟨q, by simp [hq], hrest⟩
    | none =>
      simp only [hs] at h
      obtain ⟨q, hq, hrest⟩ := ih cs t n h
      exact ⟨q, by simp [hq], hrest⟩

theorem string_mk_ne_empty (m : List Char) (h : m ≠ []) : String.mk m ≠ "" := by
  intro he
  exact h (congrArg String.data he)

theorem parseVersionChars_pre (cs : List Char) (v : Version)
    (h : parseVersionChars cs = some v) :
    v.pre_release = none ∨ ∃ s, v.pre_release = some s ∧ s ≠ "" ∧
      lowerStr s ∈ (["a", "b", "rc", "alpha", "beta", "c"] : List String) := by
  unfold parseVersionChars at h
  cases h1 : readNat cs with
  | none => simp only [h1] at h; exact Option.noConfusion h
  | some pr1 =>
    obtain ⟨maj, r1⟩ := pr1
    simp only [h1] at h
    cases h2 : readOptDotNat r1 with
    | none => simp only [h2] at h; exact Option.noConfusion h
    | some pr2 =>
      obtain ⟨mn, r2⟩ := pr2
      simp only [h2] at h
      cases h3 : readOptDotNat r2 with
      | none => simp only [h3] at h; exact Option.noConfusion h
      | some pr3 =>
        obtain ⟨pt, r3⟩ := pr3
        simp only [h3] at h
        by_cases he : r3.isEmpty = true
        · rw [if_pos he] at h
          simp only [Option.some.injEq] at h
          left
          rw [← h]
        · rw [if_neg he] at h
          cases h4 : readTagNum r3 with
          | none => simp only [h4] at h; exact Option.noConfusion h
          | some pr4 =>
            obtain ⟨tag, num⟩ := pr4
            simp only [h4] at h
            simp only [Option.some.injEq] at h
            right
            refine ⟨tag, by rw [← h], ?_, ?_⟩
            all_goals {
              obtain ⟨p, hp, m, r, hsp, htag⟩ :=
                tryTags_mem tagCandidates r3 tag num h4
              have hlow : m.map charLower = p := stripPrefixCI_lower p r3 m r hsp
              simp only [tagCandidates, List.mem_cons, List.not_mem_nil,
                or_false] at hp
              subst htag
              first
              | (rcases hp with rfl | rfl | rfl | rfl | rfl | rfl <;>
                  refine string_mk_ne_empty m ?_ <;>
                  intro hm <;> rw [hm] at hlow <;> cases hlow)
              | (rcases hp with rfl | rfl | rfl | rfl | rfl | rfl <;>
                  · show String.mk (lowerChars m) ∈ _
                    unfold lowerChars
                    rw [hlow]
                    simp)
            }

theorem asTuple_eq_specTuple_of_pre (v : Version)
    (h : v.pre_release = none ∨ ∃ s, v.pre_release = some s ∧ s ≠ "" ∧
      lowerStr s ∈ (["a", "b", "rc", "alpha", "beta", "c"] : List String)) :
    Version.asTuple v = specTuple v := by
  rcases h with h | ⟨s, hs, hne, hmem⟩
  · unfold Version.asTuple specTuple
    rw [h]
  · unfold Version.asTuple specTuple specPreOrder
    rw [hs]
    simp only [List.mem_cons, List.not_mem_nil, or_false] at hmem
    rcases hmem with hl | hl | hl | hl | hl | hl <;>
      simp [hl, hne]

/- ===== C4 ===== -/

/-- C4: version comparison and equality are comparison of the 5-tuple
(major, minor, patch, preOrder, preNum) with alpha -3, beta -2, rc -1,
final release 0 and preNum defaulting to 0; parsed versions have exactly the
claimed tuple, comparison is lexicographic on it, and the concrete chain
1.0.0a1 < 1.0.0b1 < 1.0.0rc1 < 1.0.0 and 1.0 == 1.0.0 holds. -/
theorem c4_version_tuple_ordering :
    (∀ (s : String) (v : Version), parseVersionStr s = some v →
      Version.asTuple v = specTuple v) ∧
    (∀ v w : Version,
      (vLt v w = true ↔ specTupleLt v.asTuple w.asTuple) ∧
      (vBeq v w = true ↔ v.asTuple = w.asTuple)) ∧
    (parseVersionStr "1.0.0a1" = some ⟨1, 0, 0, some "a", some 1⟩ ∧
     parseVersionStr "1.0.0b1" = some ⟨1, 0, 0, some "b", some 1⟩ ∧
     parseVersionStr "1.0.0rc1" = some ⟨1, 0, 0, some "rc", some 1⟩ ∧
     parseVersionStr "1.0.0" = some ⟨1, 0, 0, none, none⟩ ∧
     vLt ⟨1, 0, 0, some "a", some 1⟩ ⟨1, 0, 0, some "b", some 1⟩ = true ∧
     vLt ⟨1, 0, 0, some "b", some 1⟩ ⟨1, 0, 0, some "rc", some 1⟩ = true ∧
     vLt ⟨1, 0, 0, some "rc", some 1⟩ ⟨1, 0, 0, none, none⟩ = true ∧
     parseVersionStr "1.0" = parseVersionStr "1.0.0" ∧
     vBeq ⟨1, 0, 0, none, none⟩ ⟨1, 0, 0, none, none⟩ = true) := by
  refine ⟨?_, ?_, by decide⟩
  · intro s v h
    exact asTuple_eq_specTuple_of_pre v
      (parseVersionChars_pre (trimChars s.data) v h)
  · intro v w
    constructor
    · rw [show vLt v w = (cmpTuple v.asTuple w.asTuple == .lt) from rfl]
      rw [ordering_beq_lt_iff]
      exact cmpTuple_lt_iff v.asTuple w.asTuple
    · rw [show vBeq v w = decide (v.asTuple = w.asTuple) from rfl]
      exact decide_eq_true_iff

/-- C4 witness: the tuple characterization applied to the parsed pre-release
version 1.0.0a1. -/
theorem c4_witness :
    Version.asTuple ⟨1, 0, 0, some "a", some 1⟩ =
      specTuple ⟨1, 0, 0, some "a", some 1⟩ :=
  c4_version_tuple_ordering.1 "1.0.0a1" ⟨1, 0, 0, some "a", some 1⟩ (by decide)

/- ===== C9 helper lemmas: decimal printing reads back ===== -/

theorem digitChar_isDigit (d : Nat) (h : d < 10) : isDigitC (digitChar d) = true := by
  interval_cases d <;> decide

theorem digitChar_val (d : Nat) (h : d < 10) : digitVal (digitChar d) = d := by
  interval_cases d <;> decide

theorem digit_not_ws (c : Char) (h : isDigitC c = true) : isWsC c = false := by
  by_contra hws
  rw [Bool.not_eq_false] at hws
  simp [isWsC] at hws
  rcases hws with ((((rfl | rfl) | rfl) | rfl) | rfl) | rfl <;> exact absurd h (by decide)

theorem natCharsAux_fuel_irrel (n : Nat) :
    ∀ f, n ≤ f → natCharsAux f n = natCharsAux n n := by
  induction n using Nat.strong_induction_on with
  | _ n ih =>
    intro f hf
    by_cases h10 : n < 10
    · cases f with
      | zero =>
        have h0 : n = 0 := by omega
        subst h0
        rfl
      | succ f' =>
        cases n with
        | zero => rfl
        | succ m =>
          show natCharsAux (f' + 1) (m + 1) = natCharsAux (m + 1) (m + 1)
          unfold natCharsAux
          rw [if_pos h10, if_pos h10]
    · cases f with
      | zero => omega
      | succ f' =>
        obtain ⟨m, rfl⟩ : ∃ m, n = m + 1 := ⟨n - 1, by omega⟩
        show natCharsAux (f' + 1) (m + 1) = natCharsAux (m + 1) (m + 1)
        unfold natCharsAux
        rw [if_neg h10, if_neg h10]
        have hdiv : (m + 1) / 10 < m + 1 := Nat.div_lt_self (by omega) (by omega)
        congr 1
        rw [ih ((m + 1) / 10) hdiv f' (by omega), ih ((m + 1) / 10) hdiv m (by omega)]

theorem natChars_eq (n : Nat) :
    natChars n = if n < 10 then [digitChar n]
                 else natChars (n / 10) ++ [digitChar (n % 10)] := by
  by_cases h10 : n < 10
  · rw [if_pos h10]
    cases n with
    | zero => rfl
    | succ m =>
      show natCharsAux (m + 1) (m + 1) = _
      unfold natCharsAux
      rw [if_pos h10]
  · rw [if_neg h10]
    obtain ⟨m, rfl⟩ : ∃ m, n = m + 1 := ⟨n - 1, by omega⟩
    show natCharsAux (m + 1) (m + 1) = _
    unfold natCharsAux
    rw [if_neg h10]
    congr 1
    show natCharsAux m ((m + 1) / 10) = natCharsAux ((m + 1) / 10) ((m + 1) / 10)
    have hdiv : (m + 1) / 10 < m + 1 := Nat.div_lt_self (by omega) (by omega)
    exact natCharsAux_fuel_irrel ((m + 1) / 10) m (by omega)

theorem natChars_all_digits (n : Nat) : ∀ c ∈ natChars n, isDigitC c = true := by
  induction n using Nat.strong_induction_on with
  | _ n ih =>
    intro c hc
    rw [natChars_eq n] at hc
    by_cases h10 : n < 10
    · rw [if_pos h10] at hc
      simp at hc
      subst hc
      exact digitChar_isDigit n h10
    · rw [if_neg h10] at hc
      rcases List.mem_append.mp hc with h1 | h2
      · exact ih (n / 10) (Nat.div_lt_self (by omega) (by omega)) c h1
      · simp at h2
        subst h2
        exact digitChar_isDigit _ (Nat.mod_lt _ (by omega))

theorem natChars_ne_nil (n : Nat) : natChars n ≠ [] := by
  rw [natChars_eq n]
  split
  · simp
  · simp

theorem readNum_natChars (n : Nat) :
    ∀ (acc : Nat) (rest : List Char),
      readNum acc (natChars n ++ rest) =
        readNum (acc * 10 ^ (natChars n).length + n) rest := by
  induction n using Nat.strong_induction_on with
  | _ n ih =>
    intro acc rest
    by_cases h10 : n < 10
    · rw [natChars_eq n, if_pos h10]
      simp only [List.length_singleton, pow_one, List.singleton_append]
      simp only [readNum]
      rw [if_pos (digitChar_isDigit n h10), digitChar_val n h10]
      rw [show 10 * acc + n = acc * 10 + n from by omega]
    · rw [natChars_eq n, if_neg h10]
      rw [List.append_assoc]
      rw [ih (n / 10) (Nat.div_lt_self (by omega) (by omega)) acc
            ([digitChar (n % 10)] ++ rest)]
      show readNum _ (digitChar (n % 10) :: rest) = _
      simp only [readNum]
      rw [if_pos (digitChar_isDigit _ (Nat.mod_lt _ (by omega))),
          digitChar_val _ (Nat.mod_lt _ (by omega))]
      simp only [List.length_append, List.length_singleton]
      rw [pow_succ, ← Nat.mul_assoc]
      rw [show 10 * (acc * 10 ^ (natChars (n / 10)).length + n / 10) + n % 10 =
            acc * 10 ^ (natChars (n / 10)).length * 10 + n from by omega]

theorem readNum_nondigit (acc : Nat) (c : Char) (cs : List Char)
    (hc : isDigitC c = false) : readNum acc (c :: cs) = (acc, c :: cs) := by
  unfold readNum
  rw [if_neg (by simp [hc])]

theorem readNat_natChars (n : Nat) (rest : List Char)
    (hrest : ∀ c cs, rest = c :: cs → isDigitC c = false) :
    readNat (natChars n ++ rest) = some (n, rest) := by
  have h1 : readNum 0 (natChars n ++ rest) = (n, rest) := by
    rw [readNum_natChars n 0 rest]
    simp only [Nat.zero_mul, Nat.zero_add]
    cases rest with
    | nil => rfl
    | cons c cs => exact readNum_nondigit n c cs (hrest c cs rfl)
  cases hnc : natChars n with
  | nil => exact absurd hnc (natChars_ne_nil n)
  | cons c cs =>
    have hc : isDigitC c = true :=
      natChars_all_digits n c (by rw [hnc]; exact List.mem_cons_self c cs)
    show readNat (c :: (cs ++ rest)) = some (n, rest)
    have h2 : readNum 0 (c :: (cs ++ rest)) = readNum (digitVal c) (cs ++ rest) := by
      simp only [readNum]
      rw [if_pos hc]
      norm_num
    simp only [readNat]
    rw [if_pos hc, ← h2]
    rw [hnc] at h1
    show some (readNum 0 ((c :: cs) ++ rest)) = some (n, rest)
    rw [h1]

theorem trimChars_of_no_ws (l : List Char) (h : ∀ c ∈ l, isWsC c = false) :
    trimChars l = l := by
  unfold trimChars
  have h1 : l.dropWhile isWsC = l := by
    cases l with
    | nil => rfl
    | cons c cs =>
      rw [List.dropWhile_cons_of_neg]
      simp [h c (List.mem_cons_self c cs)]
  rw [h1]
  have h2 : l.reverse.dropWhile isWsC = l.reverse := by
    cases hr : l.reverse with
    | nil => rfl
    | cons c cs =>
      rw [List.dropWhile_cons_of_neg]
      have : c ∈ l := by
        rw [← List.mem_reverse, hr]
        exact List.mem_cons_self c cs
      simp [h c this]
  rw [h2, List.reverse_reverse]

theorem readOptDotNat_dot (X : List Char) (n : Nat) (r : List Char)
    (h : readNat X = some (n, r)) :
    readOptDotNat ('.' :: X) = some (some n, r) := by
  simp only [readOptDotNat, h]
  simp

theorem readTagNum_print (t : String)
    (ht : t ∈ (["a", "b", "rc", "alpha", "beta", "c"] : List String))
    (numPart : List Char) (h : numPart.all isDigitC = true) :
    readTagNum (t.data ++ numPart) =
      some (t, if numPart.isEmpty then none else some (readNum 0 numPart).1) := by
  simp only [List.mem_cons, List.not_mem_nil, or_false] at ht
  rcases ht with rfl | rfl | rfl | rfl | rfl | rfl <;>
    (simp [readTagNum, tryTags, tagCandidates, stripPrefixCI, charLower, h]
     all_goals decide)

theorem parseVersionChars_print (M mi p : Nat) (tail : List Char)
    (htail : ∀ c cs, tail = c :: cs → isDigitC c = false) :
    parseVersionChars
        (natChars M ++ ('.' :: (natChars mi ++ ('.' :: (natChars p ++ tail))))) =
      (if tail.isEmpty then some ⟨M, mi, p, none, none⟩
       else
         match readTagNum tail with
         | none => none
         | some (tag, num) => some ⟨M, mi, p, some tag, num⟩) := by
  have s1 := readNat_natChars M ('.' :: (natChars mi ++ ('.' :: (natChars p ++ tail))))
    (by intro c cs h; cases h; decide)
  have s2 := readNat_natChars mi ('.' :: (natChars p ++ tail))
    (by intro c cs h; cases h; decide)
  have s3 := readNat_natChars p tail htail
  unfold parseVersionChars
  simp only [s1, readOptDotNat_dot _ _ _ s2, readOptDotNat_dot _ _ _ s3,
    Option.getD_some]

theorem versionChars_shape_none (M mi p : Nat) (num : Option Nat) :
    versionChars ⟨M, mi, p, none, num⟩ =
      natChars M ++ ('.' :: (natChars mi ++ ('.' :: (natChars p ++ [])))) := by
  unfold versionChars
  simp [List.append_assoc]

theorem versionChars_shape_some (M mi p : Nat) (t : String) (num : Option Nat)
    (ht : t ≠ "") :
    versionChars ⟨M, mi, p, some t, num⟩ =
      natChars M ++ ('.' :: (natChars mi ++ ('.' :: (natChars p ++
        (t.data ++ (match num with
                    | none => []
                    | some n => if n = 0 then [] else natChars n)))))) := by
  unfold versionChars
  simp [ht, List.append_assoc]

theorem parse_print_some (M mi p : Nat) (t : String)
    (hmem : t ∈ (["a", "b", "rc", "alpha", "beta", "c"] : List String))
    (numPart : List Char) (hd : numPart.all isDigitC = true) :
    parseVersionChars (natChars M ++ ('.' :: (natChars mi ++ ('.' :: (natChars p ++
        (t.data ++ numPart)))))) =
      some ⟨M, mi, p, some t,
        if numPart.isEmpty then none else some (readNum 0 numPart).1⟩ := by
  have htd : t.data ≠ [] := by
    simp only [List.mem_cons, List.not_mem_nil, or_false] at hmem
    rcases hmem with rfl | rfl | rfl | rfl | rfl | rfl <;> decide
  have hth : ∀ c cs, t.data ++ numPart = c :: cs → isDigitC c = false := by
    simp only [List.mem_cons, List.not_mem_nil, or_false] at hmem
    rcases hmem with rfl | rfl | rfl | rfl | rfl | rfl <;>
      (intro c cs h; cases h; decide)
  rw [parseVersionChars_print M mi p (t.data ++ numPart) hth]
  have hemp : (t.data ++ numPart).isEmpty = false := by
    cases he : t.data ++ numPart with
    | nil =>
      rcases List.append_eq_nil.mp he with ⟨h1, _⟩
      exact absurd h1 htd
    | cons a l => rfl
  rw [hemp]
  simp only [Bool.false_eq_true, if_false, readTagNum_print t hmem numPart hd]

theorem mem_tag_not_ws (t : String)
    (hmem : t ∈ (["a", "b", "rc", "alpha", "beta", "c"] : List String)) :
    ∀ c ∈ t.data, isWsC c = false := by
  simp only [List.mem_cons, List.not_mem_nil, or_false] at hmem
  rcases hmem with rfl | rfl | rfl | rfl | rfl | rfl <;> decide

/- ===== C9 ===== -/

/-- C9: for every Version built from the grammar of the specification
(tag among a, b, rc, alpha, beta, c), parsing the string produced by
toString yields a version equal to it (equality being the structural
5-tuple equality the data model defines). -/
theorem c9_parse_tostring_roundtrip :
    ∀ v : Version, wfVersion v →
      ∃ w, parseVersionStr (versionToString v) = some w ∧
        Version.asTuple w = Version.asTuple v := by
  intro v hwf
  obtain ⟨M, mi, p, pre, num⟩ := v
  have hdata : ∀ u : Version, (versionToString u).data = versionChars u :=
    fun u => rfl
  rcases hwf with hpre | ⟨t, hpre, hmem⟩
  · dsimp only at hpre
    subst hpre
    refine ⟨⟨M, mi, p, none, none⟩, ?_, by unfold Version.asTuple; rfl⟩
    unfold parseVersionStr
    rw [hdata, versionChars_shape_none M mi p num]
    rw [trimChars_of_no_ws _ ?hnws]
    · rw [parseVersionChars_print M mi p [] (by intro c cs h; cases h)]
      rfl
    case hnws =>
      intro c hc
      simp only [List.append_nil, List.mem_append, List.mem_cons] at hc
      rcases hc with h | rfl | h | rfl | h
      · exact digit_not_ws c (natChars_all_digits M c h)
      · decide
      · exact digit_not_ws c (natChars_all_digits mi c h)
      · decide
      · exact digit_not_ws c (natChars_all_digits p c h)
  · dsimp only at hpre
    subst hpre
    have ht_ne : t ≠ "" := by
      simp only [List.mem_cons, List.not_mem_nil, or_false] at hmem
      rcases hmem with rfl | rfl | rfl | rfl | rfl | rfl <;> decide
    have hshape := versionChars_shape_some M mi p t num ht_ne
    -- the printed numeric part
    have main : ∀ numPart : List Char, numPart.all isDigitC = true →
        (∀ c ∈ numPart, isWsC c = false) →
        parseVersionStr (String.mk (natChars M ++ ('.' :: (natChars mi ++
            ('.' :: (natChars p ++ (t.data ++ numPart))))))) =
          some ⟨M, mi, p, some t,
            if numPart.isEmpty then none else some (readNum 0 numPart).1⟩ := by
      intro numPart hdg hnw
      unfold parseVersionStr
      show parseVersionChars (trimChars (natChars M ++ ('.' :: (natChars mi ++
        ('.' :: (natChars p ++ (t.data ++ numPart))))))) = _
      rw [trimChars_of_no_ws _ ?_]
      · exact parse_print_some M mi p t hmem numPart hdg
      · intro c hc
        simp only [List.mem_append, List.mem_cons] at hc
        rcases hc with h | rfl | h | rfl | h | h
        · exact digit_not_ws c (natChars_all_digits M c h)
        · decide
        · exact digit_not_ws c (natChars_all_digits mi c h)
        · decide
        · exact digit_not_ws c (natChars_all_digits p c h)
        · rcases h with h | h
          · exact mem_tag_not_ws t hmem c h
          · exact hnw c h
    cases num with
    | none =>
      refine ⟨⟨M, mi, p, some t, none⟩, ?_, rfl⟩
      have := main [] (by rfl) (by intro c hc; cases hc)
      rw [show versionToString ⟨M, mi, p, some t, none⟩ =
            String.mk (natChars M ++ ('.' :: (natChars mi ++
              ('.' :: (natChars p ++ (t.data ++ [])))))) from congrArg String.mk hshape]
      rw [this]
      rfl
    | some k =>
      by_cases hk : k = 0
      · subst hk
        refine ⟨⟨M, mi, p, some t, none⟩, ?_, ?_⟩
        · have := main [] (by rfl) (by intro c hc; cases hc)
          rw [show versionToString ⟨M, mi, p, some t, some 0⟩ =
                String.mk (natChars M ++ ('.' :: (natChars mi ++
                  ('.' :: (natChars p ++ (t.data ++ [])))))) from
              congrArg String.mk hshape]
          rw [this]
          rfl
        · unfold Version.asTuple
          simp [ht_ne]
      · obtain ⟨k', rfl⟩ : ∃ k', k = k' + 1 := ⟨k - 1, by omega⟩
        refine ⟨⟨M, mi, p, some t, some (k' + 1)⟩, ?_, rfl⟩
        have hdigits : (natChars (k' + 1)).all isDigitC = true := by
          rw [List.all_eq_true]
          intro c hc
          exact natChars_all_digits (k' + 1) c hc
        have hnw : ∀ c ∈ natChars (k' + 1), isWsC c = false := fun c hc =>
          digit_not_ws c (natChars_all_digits (k' + 1) c hc)
        have := main (natChars (k' + 1)) hdigits hnw
        have hemp : (natChars (k' + 1)).isEmpty = false := by
          cases hnc : natChars (k' + 1) with
          | nil => exact absurd hnc (natChars_ne_nil (k' + 1))
          | cons a l => rfl
        have hval : readNum 0 (natChars (k' + 1)) = (k' + 1, []) := by
          have h := readNum_natChars (k' + 1) 0 []
          rw [List.append_nil] at h
          rw [h]
          norm_num
          rfl
        rw [hemp] at this
        simp only [Bool.false_eq_true, if_false, hval] at this
        rw [show versionToString ⟨M, mi, p, some t, some (k' + 1)⟩ =
              String.mk (natChars M ++ ('.' :: (natChars mi ++
                ('.' :: (natChars p ++ (t.data ++ natChars (k' + 1))))))) from by
            rw [show versionToString ⟨M, mi, p, some t, some (k' + 1)⟩ =
                  String.mk (versionChars ⟨M, mi, p, some t, some (k' + 1)⟩) from rfl]
            rw [hshape]
            simp [hk]]
        rw [this]

/-- C9 witness: the round trip at the version 2.5.1rc3. -/
theorem c9_witness :
    ∃ w, parseVersionStr (versionToString ⟨2, 5, 1, some "rc", some 3⟩) = some w ∧
      Version.asTuple w = Version.asTuple ⟨2, 5, 1, some "rc", some 3⟩ :=
  c9_parse_tostring_roundtrip ⟨2, 5, 1, some "rc", some 3⟩
    (Or.inr ⟨"rc", rfl, by decide⟩)

/- ===== C5 helper lemmas: association lists ===== -/

theorem lookupA_cons {β : Type} (k k' : String) (v : β) (rest : List (String × β)) :
    lookupA k ((k', v) :: rest) = if k = k' then some v else lookupA k rest := rfl

theorem lookupA_none_iff {β : Type} (k : String) (m : List (String × β)) :
    lookupA k m = none ↔ k ∉ m.map Prod.fst := by
  induction m with
  | nil => simp [lookupA]
  | cons a rest ih =>
    unfold lookupA
    by_cases hk : k = a.1
    · rw [if_pos hk]
      simp [hk]
    · rw [if_neg hk]
      simp [hk, ih]

theorem lookupA_some_mem {β : Type} (k : String) (m : List (String × β)) (v : β)
    (h : lookupA k m = some v) : (k, v) ∈ m := by
  induction m with
  | nil => cases h
  | cons a rest ih =>
    obtain ⟨a1, a2⟩ := a
    unfold lookupA at h
    by_cases hk : k = a1
    · rw [if_pos hk] at h
      injection h with h
      have he : (k, v) = (a1, a2) := by rw [hk, h]
      rw [he]
      exact List.mem_cons_self (a1, a2) rest
    · rw [if_neg hk] at h
      exact List.mem_cons_of_mem _ (ih h)

theorem lookupA_append_right {β : Type} (k : String) (l1 l2 : List (String × β))
    (h : k ∉ l1.map Prod.fst) : lookupA k (l1 ++ l2) = lookupA k l2 := by
  induction l1 with
  | nil => rfl
  | cons a rest ih =>
    obtain ⟨a1, a2⟩ := a
    simp only [List.map_cons, List.mem_cons] at h
    push_neg at h
    show lookupA k ((a1, a2) :: (rest ++ l2)) = lookupA k l2
    rw [lookupA_cons, if_neg h.1]
    exact ih h.2

theorem lookupA_eq_of_mem_nodup {β : Type} (l : List (String × β)) (k : String) (v : β)
    (hnd : (l.map Prod.fst).Nodup) (hm : (k, v) ∈ l) : lookupA k l = some v := by
  induction l with
  | nil => cases hm
  | cons a rest ih =>
    obtain ⟨a1, a2⟩ := a
    simp only [List.map_cons, List.nodup_cons] at hnd
    rcases List.mem_cons.mp hm with heq | hmem
    · rw [← heq]
      show lookupA k ((k, v) :: rest) = some v
      rw [lookupA_cons, if_pos rfl]
    · have hk : k ≠ a1 := by
        intro hkk
        apply hnd.1
        rw [← hkk]
        exact List.mem_map_of_mem Prod.fst hmem
      show lookupA k ((a1, a2) :: rest) = some v
      rw [lookupA_cons, if_neg hk]
      exact ih hnd.2 hmem

theorem insertUserReq_keys (m : List (String × Requirement)) (r : Requirement) :
    (insertUserReq m r).map Prod.fst =
      if (lookupA r.normalizedName m).isSome then m.map Prod.fst
      else m.map Prod.fst ++ [r.normalizedName] := by
  unfold insertUserReq
  cases hl : lookupA r.normalizedName m with
  | some v =>
    simp only [hl, Option.isSome_some, if_pos]
    rw [List.map_map]
    apply List.map_congr_left
    intro e _
    by_cases hk : e.1 = r.normalizedName <;> simp [hk]
  | none =>
    simp [hl]

theorem buildUserReqMap_keys_nodup (us : List Requirement) :
    ((buildUserReqMap us).map Prod.fst).Nodup := by
  unfold buildUserReqMap
  have aux : ∀ (us : List Requirement) (m : List (String × Requirement)),
      (m.map Prod.fst).Nodup → ((us.foldl insertUserReq m).map Prod.fst).Nodup := by
    intro us
    induction us with
    | nil => intro m hm; exact hm
    | cons r rs ih =>
      intro m hm
      rw [List.foldl_cons]
      apply ih
      rw [insertUserReq_keys]
      cases hl : lookupA r.normalizedName m with
      | some v => simp [hm]
      | none =>
        simp only [Option.isSome_none, Bool.false_eq_true, if_false]
        rw [List.nodup_append]
        refine ⟨hm, List.nodup_singleton _, ?_⟩
        intro k hk hk2
        simp only [List.mem_singleton] at hk2
        subst hk2
        exact ((lookupA_none_iff _ _).mp hl) hk
  exact aux us [] (by simp)

theorem buildUserReqMap_keys_mono (us : List Requirement) :
    ∀ (m : List (String × Requirement)) (k : String),
      k ∈ m.map Prod.fst → k ∈ (us.foldl insertUserReq m).map Prod.fst := by
  induction us with
  | nil => intro m k hk; exact hk
  | cons r rs ih =>
    intro m k hk
    rw [List.foldl_cons]
    apply ih
    rw [insertUserReq_keys]
    split
    · exact hk
    · exact List.mem_append_left _ hk

theorem mem_buildUserReqMap_keys (us : List Requirement) (r : Requirement)
    (h : r ∈ us) : r.normalizedName ∈ (buildUserReqMap us).map Prod.fst := by
  unfold buildUserReqMap
  have aux : ∀ (us : List Requirement) (m : List (String × Requirement)),
      r ∈ us → r.normalizedName ∈ (us.foldl insertUserReq m).map Prod.fst := by
    intro us
    induction us with
    | nil => intro m hm; cases hm
    | cons a as ih =>
      intro m hm
      rw [List.foldl_cons]
      rcases List.mem_cons.mp hm with rfl | hmem
      · apply buildUserReqMap_keys_mono
        rw [insertUserReq_keys]
        cases hl : lookupA r.normalizedName m with
        | some v =>
          simp only [hl, Option.isSome_some, if_pos]
          exact List.mem_map_of_mem Prod.fst (lookupA_some_mem _ m v hl)
        | none => simp
      · exact ih (insertUserReq m a) hmem
  exact aux us [] h

theorem buildUserReqMap_keys_from (us : List Requirement) :
    ∀ (m : List (String × Requirement)) (k : String),
      k ∈ (us.foldl insertUserReq m).map Prod.fst →
      k ∈ m.map Prod.fst ∨ ∃ r ∈ us, k = r.normalizedName := by
  induction us with
  | nil => intro m k hk; exact Or.inl hk
  | cons a as ih =>
    intro m k hk
    rw [List.foldl_cons] at hk
    rcases ih (insertUserReq m a) k hk with hin | ⟨r, hr, hkr⟩
    · rw [insertUserReq_keys] at hin
      by_cases hl : (lookupA a.normalizedName m).isSome = true
      · rw [if_pos hl] at hin
        exact Or.inl hin
      · rw [if_neg hl] at hin
        rcases List.mem_append.mp hin with h1 | h2
        · exact Or.inl h1
        · simp only [List.mem_singleton] at h2
          exact Or.inr ⟨a, List.mem_cons_self a as, h2⟩
    · exact Or.inr ⟨r, List.mem_cons_of_mem a hr, hkr⟩

theorem buildUserReqMap_keys_sub (us : List Requirement) :
    ∀ k ∈ (buildUserReqMap us).map Prod.fst, ∃ r ∈ us, k = r.normalizedName := by
  intro k hk
  rcases buildUserReqMap_keys_from us [] k hk with h | h
  · cases h
  · exact h

theorem count_eq_one_of_nodup_mem (l : List String) (k : String)
    (hnd : l.Nodup) (hm : k ∈ l) : l.count k = 1 :=
  List.count_eq_one_of_mem hnd hm

/- ===== C5 helper lemmas: the merge pipeline appends one resolution,
   one requirement line and one processed key per package ===== -/

theorem userStep_ok_shape (dreqs : List (String × String))
    (deps : List (String × String × DependencyType)) (st : MState)
    (e : String × Requirement) (st' : MState)
    (h : userStep dreqs deps st e = .ok st') :
    ∃ res : ResolvedDependency,
      st'.resolutions = st.resolutions ++ [(e.1, res)] ∧
      st'.reqs = st.reqs ++ [res.constraint] ∧
      st'.processed = st.processed ++ [e.1] ∧
      (lookupA e.1 dreqs = none → res = userOverrideOf e.2 none) := by
  unfold userStep at h
  cases hl : lookupA e.1 dreqs with
  | some c =>
    simp only [hl] at h
    cases hr : resolve deps e.2 (some c) with
    | error err => simp only [hr] at h; exact Except.noConfusion h
    | ok resolved =>
      simp only [hr] at h
      cases hres : resolved.resolution <;> simp only [hres] at h <;>
        (injection h with h; subst h;
         exact ⟨resolved, rfl, rfl, rfl, fun hc => Option.noConfusion hc⟩)
  | none =>
    simp only [hl] at h
    injection h with h
    subst h
    exact ⟨userOverrideOf e.2 none, rfl, rfl, rfl, fun _ => rfl⟩

theorem processUsers_ok_shape (dreqs : List (String × String))
    (deps : List (String × String × DependencyType)) :
    ∀ (es : List (String × Requirement)) (st st' : MState),
      processUsers dreqs deps es st = .ok st' →
      ∃ new : List (String × ResolvedDependency),
        st'.resolutions = st.resolutions ++ new ∧
        st'.reqs = st.reqs ++ new.map (fun e => e.2.constraint) ∧
        st'.processed = st.processed ++ new.map Prod.fst ∧
        new.map Prod.fst = es.map Prod.fst ∧
        (∀ e ∈ es, lookupA e.1 dreqs = none →
          (e.1, userOverrideOf e.2 none) ∈ new) := by
  intro es
  induction es with
  | nil =>
    intro st st' h
    unfold processUsers at h
    injection h with h
    subst h
    exact ⟨[], by simp, by simp, by simp, rfl, by intro e he; cases he⟩
  | cons a as ih =>
    intro st st' h
    unfold processUsers at h
    cases hs : userStep dreqs deps st a with
    | error err => simp only [hs] at h; exact Except.noConfusion h
    | ok st2 =>
      simp only [hs] at h
      obtain ⟨res, h1, h2, h3, h4⟩ := userStep_ok_shape dreqs deps st a st2 hs
      obtain ⟨new2, g1, g2, g3, g4, g5⟩ := ih st2 st' h
      refine ⟨(a.1, res) :: new2, ?_, ?_, ?_, ?_, ?_⟩
      · rw [g1, h1]
        simp
      · rw [g2, h2]
        simp
      · rw [g3, h3]
        simp
      · simp [g4]
      · intro e he hl
        rcases List.mem_cons.mp he with heq | hmem
        · subst heq
          rw [h4 hl]
          exact List.mem_cons_self _ _
        · exact List.mem_cons_of_mem _ (g5 e hmem hl)

theorem processDockrion_shape :
    ∀ (l : List (String × String)) (st : MState),
      ∃ new : List (String × ResolvedDependency),
        (processDockrion l st).resolutions = st.resolutions ++ new ∧
        (processDockrion l st).reqs =
          st.reqs ++ new.map (fun e => e.2.constraint) ∧
        (processDockrion l st).processed = st.processed ++ new.map Prod.fst ∧
        (∀ k ∈ new.map Prod.fst, k ∉ st.processed) ∧
        (new.map Prod.fst).Nodup ∧
        (∀ k ∈ new.map Prod.fst, ∃ q ∈ l, k = normalizePackageName q.1) ∧
        (∀ q ∈ l, normalizePackageName q.1 ∈ (processDockrion l st).processed) := by
  intro l
  induction l with
  | nil =>
    intro st
    exact ⟨[], by simp [processDockrion], by simp [processDockrion],
      by simp [processDockrion], by simp, by simp, by simp,
      by intro q hq; cases hq⟩
  | cons a rest ih =>
    intro st
    obtain ⟨pkg, c⟩ := a
    by_cases hp : normalizePackageName pkg ∈ st.processed
    · have hred : processDockrion ((pkg, c) :: rest) st = processDockrion rest st := by
        simp only [processDockrion]
        rw [if_pos hp]
      rw [hred]
      obtain ⟨new, g1, g2, g3, g4, g5, g6, g7⟩ := ih st
      refine ⟨new, g1, g2, g3, g4, g5, ?_, ?_⟩
      · intro k hk
        obtain ⟨q, hq, he⟩ := g6 k hk
        exact ⟨q, List.mem_cons_of_mem _ hq, he⟩
      · intro q hq
        rcases List.mem_cons.mp hq with heq | hmem
        · subst heq
          rw [g3]
          exact List.mem_append_left _ hp
        · exact g7 q hmem
    · have hred : processDockrion ((pkg, c) :: rest) st =
          processDockrion rest (dockStep st pkg c) := by
        simp only [processDockrion]
        rw [if_neg hp]
      rw [hred]
      obtain ⟨new, g1, g2, g3, g4, g5, g6, g7⟩ := ih (dockStep st pkg c)
      have hp2 : (dockStep st pkg c).processed =
          st.processed ++ [normalizePackageName pkg] := rfl
      have hres2 : (dockStep st pkg c).resolutions =
          st.resolutions ++ [(normalizePackageName pkg, dockEntry pkg c)] := rfl
      have hreq2 : (dockStep st pkg c).reqs = st.reqs ++ [pkg ++ c] := rfl
      refine ⟨(normalizePackageName pkg, dockEntry pkg c) :: new, ?_, ?_, ?_, ?_, ?_, ?_, ?_⟩
      · rw [g1, hres2]
        simp
      · rw [g2, hreq2]
        simp [dockEntry]
      · rw [g3, hp2]
        simp
      · intro k hk
        simp only [List.map_cons, List.mem_cons] at hk
        rcases hk with heq | hmem
        · subst heq
          exact hp
        · have h4 := g4 k hmem
          rw [hp2] at h4
          intro hin
          exact h4 (List.mem_append_left _ hin)
      · simp only [List.map_cons, List.nodup_cons]
        refine ⟨?_, g5⟩
        intro hin
        have h4 := g4 (normalizePackageName pkg) hin
        rw [hp2] at h4
        exact h4 (List.mem_append_right _ (List.mem_singleton.mpr rfl))
      · intro k hk
        simp only [List.map_cons, List.mem_cons] at hk
        rcases hk with heq | hmem
        · exact ⟨(pkg, c), List.mem_cons_self _ _, heq⟩
        · obtain ⟨q, hq, he⟩ := g6 k hmem
          exact ⟨q, List.mem_cons_of_mem _ hq, he⟩
      · intro q hq
        rcases List.mem_cons.mp hq with heq | hmem
        · subst heq
          rw [g3, hp2]
          exact List.mem_append_left _
            (List.mem_append_right _ (List.mem_singleton.mpr rfl))
        · exact g7 q hmem

theorem processMeta_shape (metaPkg : String) (st : MState) :
    ∃ new : List (String × ResolvedDependency),
      (processMeta metaPkg st).resolutions = st.resolutions ++ new ∧
      (processMeta metaPkg st).reqs =
        st.reqs ++ new.map (fun e => e.2.constraint) ∧
      (processMeta metaPkg st).processed = st.processed ++ new.map Prod.fst ∧
      (∀ k ∈ new.map Prod.fst, k ∉ st.processed) ∧
      (new.map Prod.fst).Nodup ∧
      (∀ k ∈ new.map Prod.fst, k = "dockrion") ∧
      "dockrion" ∈ (processMeta metaPkg st).processed ∧
      ("dockrion" ∉ st.processed → new = [("dockrion", metaResolved metaPkg)]) := by
  have hnd : normalizePackageName "dockrion" = "dockrion" := by decide
  by_cases hp : normalizePackageName "dockrion" ∈ st.processed
  · have hred : processMeta metaPkg st = st := by
      unfold processMeta
      rw [if_pos hp]
    rw [hred]
    refine ⟨[], by simp, by simp, by simp, by simp, by simp, by simp, ?_, ?_⟩
    · rw [← hnd]
      exact hp
    · intro hnp
      rw [hnd] at hp
      exact absurd hp hnp
  · have hred : processMeta metaPkg st =
        { st with reqs := st.reqs ++ [metaPkg],
                  resolutions := st.resolutions ++
                    [(normalizePackageName "dockrion", metaResolved metaPkg)],
                  dockrion_versions := st.dockrion_versions ++ ["dockrion"],
                  processed := st.processed ++ [normalizePackageName "dockrion"] } := by
      unfold processMeta
      rw [if_neg hp]
    rw [hred]
    refine ⟨[("dockrion", metaResolved metaPkg)], ?_, by simp [metaResolved], ?_,
      ?_, by simp, by simp, ?_, fun _ => rfl⟩
    · simp [hnd]
    · simp [hnd]
    · intro k hk
      simp only [List.map_cons, List.map_nil, List.mem_singleton] at hk
      subst hk
      rw [hnd] at hp
      exact hp
    · show "dockrion" ∈ st.processed ++ [normalizePackageName "dockrion"]
      rw [hnd]
      exact List.mem_append_right _ (List.mem_singleton.mpr rfl)

theorem merge_ok_shape (deps : List (String × String × DependencyType))
    (dreqs : List (String × String)) (metaPkg : String)
    (users : List Requirement) (result : MergeResult)
    (h : merge deps dreqs metaPkg users = .ok result) :
    ∃ st, processUsers dreqs deps (buildUserReqMap users) initMState = .ok st ∧
      result.resolutions = (processMeta metaPkg (processDockrion dreqs st)).resolutions ∧
      result.requirements = (processMeta metaPkg (processDockrion dreqs st)).reqs := by
  unfold merge at h
  cases hp : processUsers dreqs deps (buildUserReqMap users) initMState with
  | error e => simp only [hp] at h; exact Except.noConfusion h
  | ok st =>
    simp only [hp] at h
    injection h with h
    subst h
    exact ⟨st, rfl, rfl, rfl⟩

/- ===== C5 ===== -/

/-- C5: every successful merge lists each package exactly once: the
resolutions keys are duplicate-free, the requirements list consists of
exactly the constraint string of each resolution in order, every user
package, every platform package and the dockrion meta-package have exactly
one resolutions entry, and the meta-package entry is the appended platform
pin when nobody declared dockrion, and the user's own user-only resolution
(their declaration preserved verbatim) when they did. -/
theorem c5_merge_exactly_once :
    ∀ (deps : List (String × String × DependencyType))
      (dreqs : List (String × String)) (metaPkg : String)
      (users : List Requirement) (result : MergeResult),
      merge deps dreqs metaPkg users = .ok result →
      mergeClaimInvariant dreqs users result ∧
      ((∀ r ∈ users, r.normalizedName ≠ "dockrion") →
       (∀ q ∈ dreqs, normalizePackageName q.1 ≠ "dockrion") →
        lookupA "dockrion" result.resolutions = some (metaResolved metaPkg)) ∧
      ((∀ q ∈ dreqs, normalizePackageName q.1 ≠ "dockrion") →
        ∀ r', ("dockrion", r') ∈ buildUserReqMap users →
          lookupA "dockrion" result.resolutions =
            some (userOverrideOf r' none)) := by
  intro deps dreqs metaPkg users result hmerge
  obtain ⟨st, hpu, hres, hreq⟩ := merge_ok_shape deps dreqs metaPkg users result hmerge
  obtain ⟨nu, u1, u2, u3, u4, u5⟩ :=
    processUsers_ok_shape dreqs deps (buildUserReqMap users) initMState st hpu
  have u1' : st.resolutions = nu := by rw [u1]; rfl
  have u2' : st.reqs = nu.map (fun e => e.2.constraint) := by rw [u2]; rfl
  have u3' : st.processed = nu.map Prod.fst := by rw [u3]; rfl
  obtain ⟨nd, d1, d2, d3, d4, d5, d6, d7⟩ := processDockrion_shape dreqs st
  obtain ⟨nm, m1, m2, m3, m4, m5, m6, m7, m8⟩ :=
    processMeta_shape metaPkg (processDockrion dreqs st)
  have hRES : result.resolutions = (nu ++ nd) ++ nm := by
    rw [hres, m1, d1, u1']
  have hREQ : result.requirements =
      ((nu ++ nd) ++ nm).map (fun e => e.2.constraint) := by
    rw [hreq, m2, d2, u2']
    simp [List.map_append]
  have hKeys : result.resolutions.map Prod.fst =
      (nu.map Prod.fst ++ nd.map Prod.fst) ++ nm.map Prod.fst := by
    rw [hRES]
    simp [List.map_append]
  have hPd : (processDockrion dreqs st).processed =
      nu.map Prod.fst ++ nd.map Prod.fst := by
    rw [d3, u3']
  have hKu : nu.map Prod.fst = (buildUserReqMap users).map Prod.fst := u4
  have hA : (nu.map Prod.fst).Nodup := by
    rw [hKu]
    exact buildUserReqMap_keys_nodup users
  have hAB : (nu.map Prod.fst ++ nd.map Prod.fst).Nodup := by
    rw [List.nodup_append]
    refine ⟨hA, d5, ?_⟩
    intro k hk1 hk2
    exact (d4 k hk2) (by rw [u3']; exact hk1)
  have hnodup : (result.resolutions.map Prod.fst).Nodup := by
    rw [hKeys, List.nodup_append]
    refine ⟨hAB, m5, ?_⟩
    intro k hk1 hk2
    have h4 := m4 k hk2
    rw [hPd] at h4
    exact h4 hk1
  refine ⟨⟨hnodup, by rw [hREQ, hRES], ?_, ?_, ?_⟩, ?_, ?_⟩
  · -- every user package key appears exactly once
    intro r hr
    apply count_eq_one_of_nodup_mem _ _ hnodup
    rw [hKeys]
    apply List.mem_append_left
    apply List.mem_append_left
    rw [hKu]
    exact mem_buildUserReqMap_keys users r hr
  · -- every platform package key appears exactly once
    intro q hq
    apply count_eq_one_of_nodup_mem _ _ hnodup
    rw [hKeys]
    have h7 := d7 q hq
    rw [hPd] at h7
    exact List.mem_append_left _ h7
  · -- the meta-package key appears exactly once
    apply count_eq_one_of_nodup_mem _ _ hnodup
    have h7 := m7
    rw [m3, hPd] at h7
    rw [hKeys]
    exact h7
  · -- nobody declared dockrion: the meta pin is appended
    intro hu hd
    have hnotA : "dockrion" ∉ nu.map Prod.fst := by
      intro hin
      rw [hKu] at hin
      obtain ⟨r, hr, he⟩ := buildUserReqMap_keys_sub users "dockrion" hin
      exact hu r hr he.symm
    have hnotB : "dockrion" ∉ nd.map Prod.fst := by
      intro hin
      obtain ⟨q, hq, he⟩ := d6 "dockrion" hin
      exact hd q hq he.symm
    have hnotAB : "dockrion" ∉ (processDockrion dreqs st).processed := by
      rw [hPd]
      intro hin
      rcases List.mem_append.mp hin with h | h
      · exact hnotA h
      · exact hnotB h
    have hm8 := m8 hnotAB
    rw [hRES, hm8]
    rw [lookupA_append_right]
    · rw [lookupA_cons, if_pos rfl]
    · rw [List.map_append]
      intro hin
      rcases List.mem_append.mp hin with h | h
      · exact hnotA h
      · exact hnotB h
  · -- the user declared dockrion: their declaration is kept verbatim
    intro hd r' hr'
    have hldn : lookupA "dockrion" dreqs = none := by
      rw [lookupA_none_iff]
      intro hin
      obtain ⟨q, hq, hq1⟩ := List.mem_map.mp hin
      apply hd q hq
      rw [hq1]
      decide
    have hmem := u5 ("dockrion", r') hr' hldn
    apply lookupA_eq_of_mem_nodup result.resolutions "dockrion"
      (userOverrideOf r' none) hnodup
    rw [hRES]
    exact List.mem_append_left _ (List.mem_append_left _ hmem)

/-- C5 witness: the invariant instantiated at a concrete merge with the
fallback platform tables and no user requirements. -/
theorem c5_witness : mergeClaimInvariant customDreqs [] mergeEmptyResult :=
  (c5_merge_exactly_once customDeps customDreqs metaPin [] mergeEmptyResult
    (by rfl)).1

end Dockrion
